import Mathlib

set_option maxRecDepth 100000

namespace Poe2

/-! Shallow embedding of the OCR extraction pipeline of `src/ocr_utils.py`.

Python strings are modelled as `List Char`; Python `None` is `Option.none`.
Every float produced by this pipeline is the exact decimal value of a short
digit string (`float()` of digits with at most one dot), and the pipeline
only compares, carries, adds and halves those values, so Python floats are
modelled exactly as fractions `num / den` with a positive denominator
(`PyFloat`), compared by cross multiplication; `PyFloat.toRat` interprets
them in `ℚ`.  Functions keep the source names where Lean allows it. -/

/-- A Python float as produced/consumed by this pipeline: the exact value
`num / den`.  All constructions keep `den` positive. -/
structure PyFloat where
  num : ℤ
  den : ℕ
deriving DecidableEq, Repr

namespace PyFloat

/-- Interpretation in `ℚ`. -/
def toRat (x : PyFloat) : ℚ := (x.num : ℚ) / (x.den : ℚ)

/-- Value comparison `a <= b` (cross multiplication; dens are positive). -/
def le (a b : PyFloat) : Bool := a.num * (b.den : ℤ) ≤ b.num * (a.den : ℤ)

/-- Value equality `a == b` (Python float equality is numeric). -/
def veq (a b : PyFloat) : Bool := a.num * (b.den : ℤ) = b.num * (a.den : ℤ)

/-- Addition. -/
def add (a b : PyFloat) : PyFloat := ⟨a.num * b.den + b.num * a.den, a.den * b.den⟩

/-- Subtraction. -/
def sub (a b : PyFloat) : PyFloat := ⟨a.num * b.den - b.num * a.den, a.den * b.den⟩

/-- Absolute value. -/
def vabs (a : PyFloat) : PyFloat := ⟨|a.num|, a.den⟩

/-- Halving (Python `/ 2.0`). -/
def half (a : PyFloat) : PyFloat := ⟨a.num, a.den * 2⟩

/-- A whole number. -/
def ofInt (n : ℤ) : PyFloat := ⟨n, 1⟩

/-- Python `int(x)`: truncation toward zero. -/
def pyInt (x : PyFloat) : ℤ := x.num.tdiv x.den

end PyFloat

/-- Value of a list of decimal digit characters read as a base-10 natural. -/
def natVal (l : List Char) : ℕ :=
  l.foldl (fun a c => 10 * a + (c.toNat - 48)) 0

/-- Split a list at the first occurrence of `c`, returning the parts before
and after it (models Python `str.find` plus slicing). -/
def splitFirst (c : Char) : List Char → Option (List Char × List Char)
  | [] => none
  | x :: xs =>
    if x = c then some ([], xs)
    else (splitFirst c xs).map (fun p => (x :: p.1, p.2))

/-- Python `str.strip()`: drop leading and trailing whitespace. -/
def pyStrip (l : List Char) : List Char :=
  ((l.dropWhile Char.isWhitespace).reverse.dropWhile Char.isWhitespace).reverse

/-- Number of characters after the first `.`, `0` if there is none. -/
def fracLen (s : List Char) : ℕ :=
  match splitFirst '.' s with
  | some p => p.2.length
  | none => 0

/-- Python `float(s)` on the strings this code builds (digit characters,
dots, and commas surviving from OCR noise): it succeeds exactly when the
characters are digits plus at most one `.` and at least one digit is
present, returning the exact decimal value; any other such string raises
`ValueError` in Python, which every caller catches, so here it is `none`. -/
def pyFloat? (s : List Char) : Option PyFloat :=
  if (s.all fun c => c.isDigit || c = '.') ∧ s.count '.' ≤ 1 ∧ s.any Char.isDigit then
    some ⟨(natVal (s.filter Char.isDigit) : ℤ), 10 ^ fracLen s⟩
  else none

/-- The ratio separator character class `[:/xX]`. -/
def isSepChar (c : Char) : Bool := c = ':' || c = '/' || c = 'x' || c = 'X'

/-- Python `text.replace(";", ":").replace(",", ".")` — both patterns are single
characters, so the two replaces are one character map. -/
def normalizeSep (s : List Char) : List Char :=
  s.map fun c => if c = ';' then ':' else if c = ',' then '.' else c

/-- Anchored match of the regex piece `[0-9]+(?:\.[0-9]+)?` at the head of
the input; returns the matched characters and the rest.  The digit runs are
maximal, exactly as the greedy engine takes them (backtracking can never
help for this pattern: shrinking a digit run exposes a digit, which neither
`\s` nor the separator class accepts, and dropping the fractional part
exposes a dot). -/
def matchNumAt (l : List Char) : Option (List Char × List Char) :=
  let d := l.takeWhile Char.isDigit
  let r := l.dropWhile Char.isDigit
  if d.isEmpty then none
  else
    match r with
    | '.' :: r2 =>
      let f := r2.takeWhile Char.isDigit
      if f.isEmpty then some (d, r)
      else some (d ++ '.' :: f, r2.dropWhile Char.isDigit)
    | _ => some (d, r)

/-- Anchored match of `NUM\s*[:/xX]\s*NUM` at the head of the input,
returning the two captured `NUM` groups. -/
def matchRatioAt (l : List Char) : Option (List Char × List Char) :=
  match matchNumAt l with
  | none => none
  | some (g1, r1) =>
    match r1.dropWhile Char.isWhitespace with
    | [] => none
    | c :: r3 =>
      if isSepChar c then
        match matchNumAt (r3.dropWhile Char.isWhitespace) with
        | some (g2, _) => some (g1, g2)
        | none => none
      else none

/-- Model of `re.search` for `([0-9]+(?:\.[0-9]+)?)\s*[:/xX]\s*([0-9]+(?:\.[0-9]+)?)`:
try each start position left to right. -/
def searchRatio : List Char → Option (List Char × List Char)
  | [] => none
  | x :: t =>
    match matchRatioAt (x :: t) with
    | some m => some m
    | none => searchRatio t

/-- The character-filtering loop of `parse_ratio`: keep digits and the first
decimal point, drop everything else (`du` is the `dot_used` flag). -/
def keepDigitsFirstDot : Bool → List Char → List Char
  | _, [] => []
  | du, c :: t =>
    if c.isDigit then c :: keepDigitsFirstDot du t
    else if c = '.' && !du then c :: keepDigitsFirstDot true t
    else keepDigitsFirstDot du t

/-- Function `parse_ratio` from `src/ocr_utils.py`: normalize `;`→`:` and `,`→`.`,
return the second number of the first ratio pattern if one occurs, otherwise
the float value of the digits (keeping only the first dot), `none` when
nothing parseable remains. -/
def parse_ratio (text : List Char) : Option PyFloat :=
  let s := normalizeSep text
  if s.isEmpty then none
  else
    match searchRatio s with
    | some g => pyFloat? g.2
    | none =>
      let cleaned := keepDigitsFirstDot false (s.filter fun c => c ≠ ' ')
      if cleaned.isEmpty then none else pyFloat? cleaned


/-- Function `apply_decimal_rule` from `src/ocr_utils.py`: under the
`tail_zero_two_dp` rule, when the raw text has no digits after an existing
dot and at least two digits in all, insert a decimal point two digits from
the end if there are at least three digits ending in `0`, else one digit
from the end, and reparse. -/
def apply_decimal_rule (raw : List Char) (value : PyFloat) (rule : String) : PyFloat :=
  if rule ≠ "tail_zero_two_dp" then value
  else if (match splitFirst '.' raw with
           | some p => p.2.any Char.isDigit
           | none => false) then value
  else
    let digits := raw.filter Char.isDigit
    if digits.length < 2 then value
    else
      let ins := if 3 ≤ digits.length ∧ digits.getLast? = some '0' then
        digits.length - 2 else digits.length - 1
      (pyFloat? (digits.take ins ++ '.' :: digits.drop ins)).getD value

/-- Function `coerce_ratio_merged_one` from `src/ocr_utils.py`: with at least three
digits, try dropping a trailing then a leading literal `1` and return the
first candidate whose value is inside `[min_v, max_v]`. -/
def coerce_ratio_merged_one (raw : List Char) (min_v max_v : PyFloat) : Option PyFloat :=
  let digits := raw.filter Char.isDigit
  if digits.length < 3 then none
  else
    ((if digits.getLast? = some '1' then [digits.dropLast] else []) ++
     (if digits.head? = some '1' then [digits.drop 1] else [])).findSome? fun cand =>
      if cand.isEmpty then none
      else
        match pyFloat? cand with
        | none => none
        | some v => if min_v.le v && v.le max_v then some v else none

/-- Function `coerce_full_number` from `src/ocr_utils.py`: a value below `1.0` is
re-read as the whole digit string. -/
def coerce_full_number (raw : List Char) (value : PyFloat) : PyFloat :=
  if PyFloat.le ⟨1, 1⟩ value then value
  else
    let digits := raw.filter Char.isDigit
    if digits.isEmpty then value
    else (pyFloat? digits).getD value

/-- The `integer_only` search loop of `apply_expected_range`: all contiguous
substrings of the digit string, lengths `1..n` outermost, start positions
left to right innermost, first in-range value wins. -/
def aer_int (digits : List Char) (min_v max_v : PyFloat) : Option PyFloat :=
  (List.range' 1 digits.length).findSome? fun len =>
    (List.range (digits.length - len + 1)).findSome? fun start =>
      match pyFloat? ((digits.drop start).take len) with
      | none => none
      | some v => if min_v.le v && v.le max_v then some v else none

/-- The decimal search loop of `apply_expected_range`: the whole digit
string with a dot inserted at each interior position `1..n-1`, first
in-range value wins. -/
def aer_dot (digits : List Char) (min_v max_v : PyFloat) : Option PyFloat :=
  (List.range' 1 (digits.length - 1)).findSome? fun i =>
    match pyFloat? (digits.take i ++ '.' :: digits.drop i) with
    | none => none
    | some v => if min_v.le v && v.le max_v then some v else none

/-- Function `apply_expected_range` from `src/ocr_utils.py`. -/
def apply_expected_range (raw : List Char) (value : PyFloat)
    (min_v max_v : Option PyFloat) (integer_only : Bool) : Option PyFloat :=
  match min_v, max_v with
  | some mn, some mx =>
    if mn.le value && value.le mx then some value
    else
      let digits := raw.filter Char.isDigit
      if digits.length < 2 then none
      else if integer_only then aer_int digits mn mx
      else aer_dot digits mn mx
  | _, _ => some value

/-- Function `_within_range` from `src/ocr_utils.py`: vacuously true when either
bound is missing. -/
def within_range (value : PyFloat) (min_v max_v : Option PyFloat) : Bool :=
  match min_v, max_v with
  | some mn, some mx => mn.le value && value.le mx
  | _, _ => true

/-- Function `_drop_leading_one` from `src/ocr_utils.py`. -/
def drop_leading_one (text : List Char) : Option PyFloat :=
  match text with
  | '1' :: rest =>
    let candidate := pyStrip rest
    if candidate.isEmpty then none
    else pyFloat? (if candidate.head? = some '.' then '0' :: candidate else candidate)
  | _ => none

/-- Function `_swap_two_digits` from `src/ocr_utils.py`. -/
def swap_two_digits (text : List Char) : Option PyFloat :=
  match text.filter Char.isDigit with
  | [a, b] => pyFloat? [b, a]
  | _ => none

/-- The character class `[0-9\.,]` of the looser ratio regex. -/
def isNumdChar (c : Char) : Bool := c.isDigit || c = '.' || c = ','

/-- Anchored match of `[0-9][0-9\.,]*` (greedy; backtracking can never help,
as the run characters are neither whitespace nor separators). -/
def matchNumdAt (l : List Char) : Option (List Char × List Char) :=
  match l with
  | [] => none
  | c :: t =>
    if c.isDigit then some (c :: t.takeWhile isNumdChar, t.dropWhile isNumdChar)
    else none

/-- Anchored match of `([0-9][0-9\.,]*)\s*[:/xX]\s*([0-9][0-9\.,]*)`. -/
def matchRatio2At (l : List Char) : Option (List Char × List Char) :=
  match matchNumdAt l with
  | none => none
  | some (g1, r1) =>
    match r1.dropWhile Char.isWhitespace with
    | [] => none
    | c :: r3 =>
      if isSepChar c then
        match matchNumdAt (r3.dropWhile Char.isWhitespace) with
        | some (g2, _) => some (g1, g2)
        | none => none
      else none

/-- Model of `re.search` for the looser ratio pattern, first position wins. -/
def searchRatio2 : List Char → Option (List Char × List Char)
  | [] => none
  | x :: t =>
    match matchRatio2At (x :: t) with
    | some m => some m
    | none => searchRatio2 t

/-- Anchored match of `1\s+([0-9][0-9\.,]*)`, returning the group. -/
def matchOneSpaceAt (l : List Char) : Option (List Char) :=
  match l with
  | '1' :: t =>
    if (t.takeWhile Char.isWhitespace).isEmpty then none
    else
      match matchNumdAt (t.dropWhile Char.isWhitespace) with
      | some (g, _) => some g
      | none => none
  | _ => none

/-- Model of `re.search` for `1\s+([0-9][0-9\.,]*)`. -/
def searchOneSpace : List Char → Option (List Char)
  | [] => none
  | x :: t =>
    match matchOneSpaceAt (x :: t) with
    | some g => some g
    | none => searchOneSpace t

/-- Function `_split_ratio_raw` from `src/ocr_utils.py`: pick out the interesting
side of a recognized ratio (the left side when the right side reads `1`),
falling back to a `1␣NUM` pattern and then to everything after the first
colon. -/
def split_ratio_raw (raw : List Char) : List Char × Option (List Char) :=
  if raw.isEmpty then (raw, none)
  else
    match searchRatio2 raw with
    | some (lhs_raw, rhs_raw) =>
      if (parse_ratio rhs_raw).any (fun v => v.veq ⟨1, 1⟩) ∧ (parse_ratio lhs_raw).isSome then
        (raw, some lhs_raw)
      else (raw, some rhs_raw)
    | none =>
      match searchOneSpace raw with
      | some g => (raw, some g)
      | none =>
        if ':' ∈ raw then
          match splitFirst ':' raw with
          | some p => (raw, some (pyStrip p.2))
          | none => (raw, none)
        else (raw, none)

/-- The per-region tuning fields of `NamedRect` (`src/project_config.py`)
that `compute_display` reads. -/
structure RegionConfig where
  decimal_rule : String
  expected_min : Option PyFloat
  expected_max : Option PyFloat
  expected_integer_only : Bool

/-- Stable insertion of `x` into a list already sorted by `key`. -/
def insertByKey (key : PyFloat → PyFloat) (x : PyFloat) :
    List PyFloat → List PyFloat
  | [] => [x]
  | y :: ys => if (key x).le (key y) then x :: y :: ys else y :: insertByKey key x ys

/-- Python `list.sort(key=...)`: a stable ascending sort by key. -/
def pySortByKey (key : PyFloat → PyFloat) : List PyFloat → List PyFloat
  | [] => []
  | x :: t => insertByKey key x (pySortByKey key t)

/-- The early-return repair block of `compute_display`: when the re-scanned
ratio has right side `1`, try the leading-1 drop and the two-digit swap on
the left side, keep the in-range ones, and return the first (sorted by
distance to the middle of the expected range when both bounds exist). -/
def ratioRepair (raw_full : List Char) (rr : RegionConfig) : Option PyFloat :=
  match searchRatio2 raw_full with
  | none => none
  | some (lhs_raw, rhs_match) =>
    if (parse_ratio rhs_match).any (fun v => v.veq ⟨1, 1⟩) ∧ ¬lhs_raw.isEmpty then
      let dropped := drop_leading_one lhs_raw
      let swapped := swap_two_digits lhs_raw
      let candidates :=
        (match dropped with
         | some d => if within_range d rr.expected_min rr.expected_max then [d] else []
         | none => []) ++
        (match swapped with
         | some s => if within_range s rr.expected_min rr.expected_max then [s] else []
         | none => [])
      match candidates with
      | [] => none
      | c :: cs =>
        match rr.expected_min, rr.expected_max with
        | some mn, some mx =>
          (pySortByKey (fun v => (v.sub (mn.add mx).half).vabs) (c :: cs)).head?
        | _, _ => some c
    else none

/-- Function `compute_display` from `src/ocr_utils.py`: the correction pipeline run
on the winning `(raw, value)` pair. -/
def compute_display (raw : List Char) (value : PyFloat) (rr : RegionConfig) :
    Option PyFloat :=
  let p := split_ratio_raw raw
  let raw_full := p.1
  let rhsT : Bool := match p.2 with | some r => !r.isEmpty | none => false
  let raw_for_rules := if rhsT then p.2.getD [] else raw_full
  let base_value := if rhsT then (parse_ratio (p.2.getD [])).getD value else value
  match (if rhsT then ratioRepair raw_full rr else none) with
  | some v => some v
  | none =>
    let display := coerce_full_number raw_for_rules base_value
    let tl : Option PyFloat := apply_expected_range raw_for_rules
      (apply_decimal_rule raw_for_rules display rr.decimal_rule)
      rr.expected_min rr.expected_max rr.expected_integer_only
    match rr.expected_min, rr.expected_max with
    | some mn, some mx =>
      if mn.le display && display.le mx then some display
      else if ¬(raw_for_rules.any fun c =>
          c = ':' || c = '/' || c = 'x' || c = 'X' || c = '.') then
        match coerce_ratio_merged_one raw_for_rules mn mx with
        | some merged => some merged
        | none => tl
      else tl
    | _, _ => tl


/-! ### Candidate scoring and selection (`read_ratio_from_image`) -/

/-- Python tuple comparison `a < b` on integer tuples: lexicographic, an
exhausted shorter tuple is smaller. -/
def pyTupleLt : List ℤ → List ℤ → Bool
  | [], [] => false
  | [], _ :: _ => true
  | _ :: _, [] => false
  | a :: xs, b :: ys => if a < b then true else if b < a then false else pyTupleLt xs ys

/-- The ranking key built inside `read_ratio_from_image` for one candidate:
`(weight, has_sep, dot_score, digits_after_dot, -digit_count,
-stripped_length)`.  `w` is the process-wide `OCR_WEIGHTS` table as a total
lookup (`OCR_WEIGHTS.get(label, 0)`). -/
def scoreOf (w : String → ℤ) (label : String) (candidate : List Char) : List ℤ :=
  let digits := candidate.filter Char.isDigit
  let has_dot : Bool := '.' ∈ candidate
  let has_sep : ℤ := if candidate.any isSepChar then 1 else 0
  let digits_after_dot : ℕ :=
    match splitFirst '.' candidate with
    | some p => (p.2.filter Char.isDigit).length
    | none => 0
  let dot_score : ℤ := if has_dot ∧ 0 < digits_after_dot then 1 else 0
  [w label, has_sep, dot_score, (digits_after_dot : ℤ),
   -(digits.length : ℤ), -((pyStrip candidate).length : ℤ)]

/-- One iteration of the selection loop of `read_ratio_from_image`: skip a
valueless candidate, otherwise replace the best when the new score is
strictly greater. -/
def rriStep (w : String → ℤ) (acc : Option PyFloat × List Char × List ℤ)
    (c : String × List Char × Option PyFloat) : Option PyFloat × List Char × List ℤ :=
  match c.2.2 with
  | none => acc
  | some r =>
    let sc := scoreOf w c.1 c.2.1
    if pyTupleLt acc.2.2 sc then (some r, pyStrip c.2.1, sc) else acc

/-- The selection stage of `read_ratio_from_image` from `src/ocr_utils.py`,
over the candidate list produced by `ocr_candidates`: fold the loop from the
initial `(None, "", (-1, -1, -1, -1, -1))` state and return
`(best_ratio, best_raw, candidates)`, or `(None, "", candidates)` when no
candidate carried a value. -/
def read_ratio_from_image (w : String → ℤ)
    (candidates : List (String × List Char × Option PyFloat)) :
    Option PyFloat × List Char × List (String × List Char × Option PyFloat) :=
  let fin := candidates.foldl (rriStep w) (none, [], [-1, -1, -1, -1, -1])
  match fin.1 with
  | some r => (some r, fin.2.1, candidates)
  | none => (none, [], candidates)

/-! ### The extraction ensemble (`ocr_candidates`) -/

/-- The fixed engine configurations tried for every preprocessed image. -/
def cfgs : List (String × String) :=
  [("psm7", "--oem 1 --psm 7 -c tessedit_char_whitelist=0123456789.:/xX -c classify_bln_numeric_mode=1 -c user_defined_dpi=300"),
   ("psm8", "--oem 1 --psm 8 -c tessedit_char_whitelist=0123456789.:/xX -c classify_bln_numeric_mode=1 -c user_defined_dpi=300"),
   ("psm6", "--oem 1 --psm 6 -c tessedit_char_whitelist=0123456789.:/xX -c classify_bln_numeric_mode=1 -c user_defined_dpi=300"),
   ("psm13", "--oem 1 --psm 13 -c tessedit_char_whitelist=0123456789.:/xX -c classify_bln_numeric_mode=1 -c user_defined_dpi=300")]

/-- Function `ocr_candidates` from `src/ocr_utils.py`, with the external
`pytesseract.image_to_string` call abstracted as a fallible
`recognize : Img → config → Except String String`.  The source performs the
call with no `try`/`except`, so a raising call propagates through the whole
fold: the result is `Except.error` as soon as any pairing fails. -/
def ocr_candidates {Img : Type} (recognize : Img → String → Except String String)
    (img : Img) (preps : List (String × (Img → Img))) :
    Except String (List (String × List Char × Option PyFloat)) :=
  preps.foldlM (fun acc lp =>
    cfgs.foldlM (fun acc2 lc => do
      let raw ← recognize (lp.2 img) lc.2
      pure (acc2 ++ [(lp.1 ++ ":" ++ lc.1, pyStrip raw.data, parse_ratio raw.data)]))
      acc) []

/-! ### Connected-component cleaning (`clean_binary`)

Images are rectangular `List (List ℕ)` grids of 8-bit pixel values, indexed
as `(row, column)`.  `cv2.connectedComponentsWithStats(inv, connectivity=8)`
is modelled by its documented semantics: the maximal 8-connected sets of
nonzero pixels, each with bounding-box and area statistics.  The source's
loop writes each surviving component's bounding-box slice of `inv` into a
zero image; the writes all copy from the same `inv`, so the resulting image
holds `inv` inside the union of the surviving bounding boxes and `0`
elsewhere, which is how the write loop is rendered here. -/

/-- Pixel value at `(r, c)`, `0` outside the grid. -/
def pxAt (img : List (List ℕ)) (r c : ℕ) : ℕ := (img.getD r []).getD c 0

/-- Row-major list of the nonzero (foreground) pixels. -/
def fgPixels (img : List (List ℕ)) : List (ℕ × ℕ) :=
  ((List.range img.length).map fun r =>
    (List.range (img.headD []).length).filterMap fun c =>
      if pxAt img r c ≠ 0 then some (r, c) else none).flatten

/-- Adjacency of two distinct pixels in the 8-neighbourhood sense. -/
def adj8 (p q : ℕ × ℕ) : Bool :=
  (max p.1 q.1 - min p.1 q.1 ≤ 1) && (max p.2 q.2 - min p.2 q.2 ≤ 1) && p ≠ q

/-- One breadth step: adjoin every foreground pixel adjacent to the set. -/
def growComp (fg s : List (ℕ × ℕ)) : List (ℕ × ℕ) :=
  s ++ fg.filter fun q => q ∉ s ∧ s.any fun p => adj8 p q

/-- Iterated closure; `fg.length` steps reach every connected pixel. -/
def compClosure (fg : List (ℕ × ℕ)) : ℕ → List (ℕ × ℕ) → List (ℕ × ℕ)
  | 0, s => s
  | n + 1, s => compClosure fg n (growComp fg s)

/-- The 8-connected component of `p` within the foreground `fg`. -/
def compOf (fg : List (ℕ × ℕ)) (p : ℕ × ℕ) : List (ℕ × ℕ) :=
  compClosure fg fg.length [p]

/-- Scan the foreground in row-major order, opening a new component at each
pixel not already covered. -/
def componentsFrom (fg : List (ℕ × ℕ)) :
    List (ℕ × ℕ) → List (List (ℕ × ℕ)) → List (List (ℕ × ℕ))
  | [], acc => acc.reverse
  | p :: rest, acc =>
    if acc.any fun comp => p ∈ comp then componentsFrom fg rest acc
    else componentsFrom fg rest (compOf fg p :: acc)

/-- The 8-connected components of the nonzero pixels of `img`. -/
def components (img : List (List ℕ)) : List (List (ℕ × ℕ)) :=
  componentsFrom (fgPixels img) (fgPixels img) []

/-- The `cv2.connectedComponentsWithStats` per-component statistics:
leftmost column, top row, box width, box height, pixel count. -/
structure CompStats where
  x : ℕ
  y : ℕ
  bw : ℕ
  bh : ℕ
  area : ℕ
deriving DecidableEq, Repr

/-- Statistics of one (nonempty) component. -/
def compStats (comp : List (ℕ × ℕ)) : CompStats :=
  match comp with
  | [] => ⟨0, 0, 0, 0, 0⟩
  | q :: t =>
    let minC := t.foldl (fun a p => min a p.2) q.2
    let maxC := t.foldl (fun a p => max a p.2) q.2
    let minR := t.foldl (fun a p => min a p.1) q.1
    let maxR := t.foldl (fun a p => max a p.1) q.1
    ⟨minC, minR, maxC - minC + 1, maxR - minR + 1, comp.length⟩

/-- The survival test of the cleaning loop: a component is kept unless its
area is below `max(8, int(cropArea × min_area_ratio))`, or it sits entirely
inside the left margin and is small. -/
def keepComp (h w : ℕ) (min_area_ratio left_margin_ratio left_max_area_ratio : PyFloat)
    (left_max_width : ℤ) (comp : List (ℕ × ℕ)) : Bool :=
  let st := compStats comp
  let min_area : ℤ := max 8 (PyFloat.pyInt ⟨min_area_ratio.num * (h * w : ℕ), min_area_ratio.den⟩)
  let left_margin : ℤ := PyFloat.pyInt ⟨left_margin_ratio.num * (w : ℕ), left_margin_ratio.den⟩
  let left_max_area : ℤ := PyFloat.pyInt ⟨left_max_area_ratio.num * (h * w : ℕ), left_max_area_ratio.den⟩
  ¬((st.area : ℤ) < min_area) &&
    ¬((st.x + st.bw : ℤ) ≤ left_margin &&
      ((st.area : ℤ) < left_max_area || (st.bw : ℤ) ≤ left_max_width))

/-- Function `clean_binary` from `src/ocr_utils.py`. -/
def clean_binary (bin_img : List (List ℕ))
    (min_area_ratio left_margin_ratio left_max_area_ratio : PyFloat)
    (left_max_width : ℤ) : List (List ℕ) :=
  let h := bin_img.length
  let w := (bin_img.headD []).length
  let inverted : Bool := !(PyFloat.le ⟨(bin_img.map List.sum).sum, h * w⟩ ⟨127, 1⟩)
  let inv := if inverted then bin_img.map (fun row => row.map (255 - ·)) else bin_img
  let comps := components inv
  if comps.isEmpty then bin_img
  else
    let survivors := comps.filter
      (keepComp h w min_area_ratio left_margin_ratio left_max_area_ratio left_max_width)
    let keep := (List.range h).map fun r => (List.range w).map fun c =>
      if survivors.any fun comp =>
          let st := compStats comp
          st.y ≤ r ∧ r < st.y + st.bh ∧ st.x ≤ c ∧ c < st.x + st.bw
      then pxAt inv r c else 0
    if inverted then keep.map (fun row => row.map (255 - ·)) else keep


/-- An 8×8 binary crop: a diagonal stroke (an 8-connected component of area
8 whose bounding box is the whole crop) plus an isolated speck at `(0, 4)`. -/
def diagSpeckImg : List (List ℕ) :=
  (List.range 8).map fun r => (List.range 8).map fun c =>
    if r = c ∨ (r = 0 ∧ c = 4) then 255 else 0


/-- A 9×10 binary crop with a centred 3×3 glyph blob (rows 3–5, columns
5–7) and a thin artifact bar on the left edge (column 0, rows 0–7). -/
def glyphArtifactImg : List (List ℕ) :=
  (List.range 9).map fun r => (List.range 10).map fun c =>
    if (c = 0 ∧ r < 8) ∨ (3 ≤ r ∧ r ≤ 5 ∧ 5 ≤ c ∧ c ≤ 7) then 255 else 0

/-- Image `glyphArtifactImg` with only the glyph blob left. -/
def glyphOnlyImg : List (List ℕ) :=
  (List.range 9).map fun r => (List.range 10).map fun c =>
    if 3 ≤ r ∧ r ≤ 5 ∧ 5 ≤ c ∧ c ≤ 7 then 255 else 0


/-- From the claim's words, integer mode: the whole-integer values of all
contiguous substrings of the digit string, in the loop's scan order
(shortest length first, then leftmost position). -/
def intScanValues (digits : List Char) : List PyFloat :=
  (List.range' 1 digits.length).flatMap fun len =>
    (List.range (digits.length - len + 1)).map fun s =>
      ⟨(natVal ((digits.drop s).take len) : ℤ), 1⟩

/-- From the claim's words, decimal mode as the code implements it: the
values of the full digit string with a decimal point inserted at each
interior position, leftmost first. -/
def dotScanValues (digits : List Char) : List PyFloat :=
  (List.range' 1 (digits.length - 1)).map fun i =>
    ⟨(natVal digits : ℤ), 10 ^ (digits.length - i)⟩

/-- A recognizer that raises only for the `psm8` engine configuration and
reads `"12:34"` everywhere else. -/
def psm8FailingRecognize : Unit → String → Except String String := fun _ cfg =>
  if cfg = "--oem 1 --psm 8 -c tessedit_char_whitelist=0123456789.:/xX -c classify_bln_numeric_mode=1 -c user_defined_dpi=300"
  then Except.error "engine failure" else Except.ok "12:34"

/-- The bounding box of a component contains a point. -/
def bboxContains (comp : List (ℕ × ℕ)) (r c : ℕ) : Prop :=
  (compStats comp).y ≤ r ∧ r < (compStats comp).y + (compStats comp).bh ∧
  (compStats comp).x ≤ c ∧ c < (compStats comp).x + (compStats comp).bw

instance (comp : List (ℕ × ℕ)) (r c : ℕ) : Decidable (bboxContains comp r c) := by
  unfold bboxContains
  infer_instance

/-- Modelled from the claim's words: the earliest-produced candidate, among
those whose parsed value is not `None`, whose ranking key is maximal over
all valued candidates; the no-candidate result `(None, "")` when every value
is `None`. -/
def selectBest (w : String → ℤ)
    (cands : List (String × List Char × Option PyFloat)) :
    Option PyFloat × List Char :=
  match (cands.filter fun c => c.2.2.isSome).find? (fun c =>
      (cands.filter fun d => d.2.2.isSome).all fun d =>
        !pyTupleLt (scoreOf w c.1 c.2.1) (scoreOf w d.1 d.2.1)) with
  | some c => (c.2.2, pyStrip c.2.1)
  | none => (none, [])

/-- The property characterizing the candidate at which the selection loop's
running best stops, given threshold score `thr` and surrounding list `l`: a
valued candidate strictly beating `thr` that no valued candidate of `l`
strictly beats. -/
def bestPred (w : String → ℤ) (thr : List ℤ)
    (l : List (String × List Char × Option PyFloat))
    (c : String × List Char × Option PyFloat) : Bool :=
  c.2.2.isSome && pyTupleLt thr (scoreOf w c.1 c.2.1) &&
    l.all fun d => !(d.2.2.isSome && pyTupleLt (scoreOf w c.1 c.2.1) (scoreOf w d.1 d.2.1))

/-- The inversion flag computed by `clean_binary`: mean brightness above
`127.0` means the foreground is the lighter class. -/
def cbInverted (bin_img : List (List ℕ)) : Bool :=
  !(PyFloat.le ⟨((bin_img.map List.sum).sum : ℤ),
    bin_img.length * (bin_img.headD []).length⟩ ⟨127, 1⟩)

/-- The image whose connected components `clean_binary` labels: the input,
inverted first when the mean indicates a light foreground. -/
def cbInv (bin_img : List (List ℕ)) : List (List ℕ) :=
  if cbInverted bin_img then bin_img.map (fun row => row.map (255 - ·)) else bin_img

/-- The light-background counterpart of `diagSpeckImg`: value `0` on the
diagonal and at `(0, 4)`, `255` elsewhere, so the mean exceeds `127` and
`clean_binary` takes its invert–clean–reinvert branch. -/
def invSpeckImg : List (List ℕ) :=
  (List.range 8).map fun r => (List.range 8).map fun c =>
    if r = c ∨ (r = 0 ∧ c = 4) then 0 else 255

/-! ### Concrete sanity evaluations -/

example : parse_ratio "12:34".data = some ⟨34, 1⟩ := by decide
example : parse_ratio "1x7.5".data = some ⟨75, 10⟩ := by decide
example : parse_ratio "".data = none := by decide
example : parse_ratio "a1b2.c3,4".data = some ⟨1234, 100⟩ := by decide
example : parse_ratio "..".data = none := by decide
example : parse_ratio "1 125".data = some ⟨1125, 1⟩ := by decide
example : PyFloat.toRat ⟨75, 10⟩ = 15 / 2 := by norm_num [PyFloat.toRat]

example : apply_decimal_rule "1250".data ⟨1250, 1⟩ "tail_zero_two_dp" = ⟨1250, 100⟩ := by
  decide
example : apply_decimal_rule "125".data ⟨125, 1⟩ "tail_zero_two_dp" = ⟨125, 10⟩ := by
  decide
example : compute_display "12:1".data ⟨1, 1⟩ ⟨"", none, none, false⟩ = some ⟨2, 1⟩ := by
  decide
example : compute_display "1125".data ⟨1125, 1⟩ ⟨"", some ⟨1, 1⟩, some ⟨50, 1⟩, false⟩ =
    some ⟨1125, 1000⟩ := by decide
example : compute_display "1125".data ⟨1125, 1⟩ ⟨"", some ⟨1, 1⟩, some ⟨50, 1⟩, true⟩ =
    some ⟨1, 1⟩ := by decide
example : apply_expected_range "99".data ⟨0, 1⟩ (some ⟨9, 1⟩) (some ⟨9, 1⟩) false = none := by
  decide

example : components [[255, 0, 255]] = [[(0, 0)], [(0, 2)]] := by decide
example : components [[255, 255], [0, 255]] = [[(0, 0), (0, 1), (1, 1)]] := by decide

example : pxAt (clean_binary diagSpeckImg ⟨1, 32⟩ ⟨0, 1⟩ ⟨0, 1⟩ 0) 0 4 = 255 := by decide
example : (compOf (fgPixels diagSpeckImg) (0, 4)).length = 1 := by decide

example : clean_binary glyphArtifactImg ⟨0, 1⟩ ⟨1, 5⟩ ⟨0, 1⟩ 2 = glyphOnlyImg := by decide
example : cbInverted invSpeckImg = true := by decide
example : cbInv invSpeckImg = diagSpeckImg := by decide
example : clean_binary invSpeckImg ⟨1, 32⟩ ⟨0, 1⟩ ⟨0, 1⟩ 0 = invSpeckImg := by decide


/-! ### Shared helper lemmas -/

theorem splitFirst_eq_none {c : Char} {l : List Char} (h : c ∉ l) :
    splitFirst c l = none := by
  induction l with
  | nil => rfl
  | cons x xs ih =>
    simp only [List.mem_cons, not_or] at h
    simp [splitFirst, Ne.symm h.1, ih h.2]

theorem keepDigitsFirstDot_no_dot {l : List Char} (h : '.' ∉ l) (du : Bool) :
    keepDigitsFirstDot du l = l.filter Char.isDigit := by
  induction l generalizing du with
  | nil => rfl
  | cons x xs ih =>
    simp only [List.mem_cons, not_or] at h
    by_cases hd : x.isDigit
    · simp [keepDigitsFirstDot, hd, List.filter, ih h.2]
    · simp [keepDigitsFirstDot, hd, Ne.symm h.1, List.filter, ih h.2]

theorem pyFloat?_digits {l : List Char} (hall : ∀ c ∈ l, c.isDigit) (hne : l ≠ []) :
    pyFloat? l = some ⟨(natVal l : ℤ), 1⟩ := by
  have hnodot : '.' ∉ l := fun hm => by simpa using hall '.' hm
  have h1 : l.all (fun c => c.isDigit || c = '.') = true := by
    simp only [List.all_eq_true]
    exact fun c hc => by simp [hall c hc]
  have h2 : l.count '.' = 0 := List.count_eq_zero.2 hnodot
  have h3 : l.any Char.isDigit = true := by
    rcases List.exists_mem_of_ne_nil l hne with ⟨a, ha⟩
    exact List.any_eq_true.2 ⟨a, ha, hall a ha⟩
  have h4 : l.filter Char.isDigit = l := List.filter_eq_self.2 hall
  have h5 : fracLen l = 0 := by simp [fracLen, splitFirst_eq_none hnodot]
  simp [pyFloat?, h1, h2, h3, h4, h5]

theorem splitFirst_prepend_not {c : Char} {a b : List Char} (h : c ∉ a) :
    splitFirst c (a ++ c :: b) = some (a, b) := by
  induction a with
  | nil => simp [splitFirst]
  | cons x xs ih =>
    simp only [List.mem_cons, not_or] at h
    simp [splitFirst, Ne.symm h.1, ih h.2]

theorem pyFloat?_digits_dot_digits {a b : List Char}
    (ha : ∀ c ∈ a, c.isDigit) (hb : ∀ c ∈ b, c.isDigit) (hne : a ≠ [] ∨ b ≠ []) :
    pyFloat? (a ++ '.' :: b) = some ⟨(natVal (a ++ b) : ℤ), 10 ^ b.length⟩ := by
  have hnda : '.' ∉ a := fun hm => by simpa using ha '.' hm
  have hndb : '.' ∉ b := fun hm => by simpa using hb '.' hm
  have h1 : (a ++ '.' :: b).all (fun c => c.isDigit || c = '.') = true := by
    simp only [List.all_eq_true]
    intro c hc
    simp only [List.mem_append, List.mem_cons] at hc
    rcases hc with hc | hc | hc
    · simp [ha c hc]
    · simp [hc]
    · simp [hb c hc]
  have h2 : (a ++ '.' :: b).count '.' ≤ 1 := by
    have c1 : a.count '.' = 0 := List.count_eq_zero.2 hnda
    have c2 : b.count '.' = 0 := List.count_eq_zero.2 hndb
    rw [List.count_append, List.count_cons_self]
    omega
  have h3 : (a ++ '.' :: b).any Char.isDigit = true := by
    rcases hne with hne | hne
    · rcases List.exists_mem_of_ne_nil a hne with ⟨x, hx⟩
      exact List.any_eq_true.2 ⟨x, by simp [hx], ha x hx⟩
    · rcases List.exists_mem_of_ne_nil b hne with ⟨x, hx⟩
      exact List.any_eq_true.2 ⟨x, by simp [hx], hb x hx⟩
  have h4 : (a ++ '.' :: b).filter Char.isDigit = a ++ b := by
    rw [List.filter_append, List.filter_eq_self.2 ha]
    simp only [List.filter]
    have : ('.' : Char).isDigit = false := by decide
    rw [this, List.filter_eq_self.2 hb]
  have h5 : fracLen (a ++ '.' :: b) = b.length := by
    simp [fracLen, splitFirst_prepend_not hnda]
  unfold pyFloat?
  rw [if_pos ⟨h1, h2, h3⟩, h4, h5]

theorem dropWhile_sublist (p : Char → Bool) (l : List Char) :
    (l.dropWhile p).Sublist l := by
  induction l with
  | nil => simp
  | cons x xs ih =>
    by_cases h : p x
    · simpa [List.dropWhile, h] using ih.cons x
    · simp [List.dropWhile, h]

/-! ### C3 and C9: the decimal rule -/

/-- C3 counterexample: with `decimalRule = TailZeroTwoDp`, raw `"125"` does
not yield `1.25`; the code (and the claim's own stated rule) inserts the dot
one digit from the end, giving `12.5`. -/
theorem decimal_rule_125_not_125e2 :
    (apply_decimal_rule "125".data ⟨125, 1⟩ "tail_zero_two_dp").toRat = 25 / 2 ∧
    (25 / 2 : ℚ) ≠ 5 / 4 := by
  constructor
  · have h : apply_decimal_rule "125".data ⟨125, 1⟩ "tail_zero_two_dp" = ⟨125, 10⟩ := by
      decide
    rw [h]; norm_num [PyFloat.toRat]
  · norm_num

/-- C3 (amended): under `decimalRule = TailZeroTwoDp`, for every incoming
value, raw `"1250"` yields `12.50` and raw `"125"` yields `12.5` (the stated
rule itself: `≥ 3` digits ending in `0` puts the dot two digits from the
end, otherwise one digit from the end). -/
theorem decimal_rule_1250_125 (v : PyFloat) :
    (apply_decimal_rule "1250".data v "tail_zero_two_dp").toRat = 25 / 2 ∧
    (apply_decimal_rule "125".data v "tail_zero_two_dp").toRat = 25 / 2 := by
  have h1 : apply_decimal_rule "1250".data v "tail_zero_two_dp" = ⟨1250, 100⟩ := rfl
  have h2 : apply_decimal_rule "125".data v "tail_zero_two_dp" = ⟨125, 10⟩ := rfl
  rw [h1, h2]
  norm_num [PyFloat.toRat]

/-- C9: under `decimalRule = TailZeroTwoDp`, a raw text whose digit string
has fewer than two digits passes the incoming value through unchanged. -/
theorem decimal_rule_short_digits_unchanged (raw : List Char) (v : PyFloat)
    (h : (raw.filter Char.isDigit).length < 2) :
    apply_decimal_rule raw v "tail_zero_two_dp" = v := by
  unfold apply_decimal_rule
  split
  · rfl
  · split
    · rfl
    · simp only [if_pos h]

/-- C9 witness: raw `"5"` with value `5.0` stays `5.0`. -/
theorem decimal_rule_short_digits_unchanged_witness :
    ("5".data.filter Char.isDigit).length < 2 ∧
    apply_decimal_rule "5".data ⟨5, 1⟩ "tail_zero_two_dp" = ⟨5, 1⟩ :=
  ⟨by decide, decimal_rule_short_digits_unchanged "5".data ⟨5, 1⟩ (by decide)⟩

/-! ### C7 and C8: the ratio parser -/

theorem normalizeSep_eq_self {t : List Char} (h : ∀ c ∈ t, c ≠ ';' ∧ c ≠ ',') :
    normalizeSep t = t := by
  induction t with
  | nil => rfl
  | cons x xs ih =>
    have hx := h x (by simp)
    simp only [normalizeSep, List.map_cons, if_neg hx.1, if_neg hx.2]
    exact congrArg (x :: ·) (ih fun c hc => h c (by simp [hc]))

theorem matchNumAt_rest_sublist {l g r : List Char} (h : matchNumAt l = some (g, r)) :
    r.Sublist l := by
  unfold matchNumAt at h
  by_cases hd : (l.takeWhile Char.isDigit).isEmpty
  · simp [hd] at h
  · simp only [hd, Bool.false_eq_true, if_false] at h
    have hdw : (l.dropWhile Char.isDigit).Sublist l := dropWhile_sublist _ l
    split at h
    next r2 heq =>
      split at h
      · simp only [Option.some.injEq, Prod.mk.injEq] at h
        rw [← h.2]
        exact hdw
      · simp only [Option.some.injEq, Prod.mk.injEq] at h
        rw [← h.2]
        have h1 : (r2.dropWhile Char.isDigit).Sublist r2 := dropWhile_sublist _ r2
        have h2 : r2.Sublist ('.' :: r2) := List.sublist_cons_self _ _
        rw [← heq] at h2
        exact h1.trans (h2.trans hdw)
    next =>
      simp only [Option.some.injEq, Prod.mk.injEq] at h
      rw [← h.2]
      exact hdw

theorem matchNumAt_group_pyFloat {l g r : List Char} (h : matchNumAt l = some (g, r)) :
    (pyFloat? g).isSome := by
  unfold matchNumAt at h
  by_cases hd : (l.takeWhile Char.isDigit).isEmpty
  · simp [hd] at h
  · simp only [hd, Bool.false_eq_true, if_false] at h
    have hne : l.takeWhile Char.isDigit ≠ [] := by
      simpa [List.isEmpty_iff] using hd
    have hdig : ∀ c ∈ l.takeWhile Char.isDigit, c.isDigit :=
      fun c hc => List.mem_takeWhile_imp hc
    split at h
    next r2 heq =>
      split at h
      · simp only [Option.some.injEq, Prod.mk.injEq] at h
        rw [← h.1, pyFloat?_digits hdig hne]
        rfl
      next hf =>
        have hfne : r2.takeWhile Char.isDigit ≠ [] := by
          simpa [List.isEmpty_iff] using hf
        have hfdig : ∀ c ∈ r2.takeWhile Char.isDigit, c.isDigit :=
          fun c hc => List.mem_takeWhile_imp hc
        simp only [Option.some.injEq, Prod.mk.injEq] at h
        rw [← h.1, pyFloat?_digits_dot_digits hdig hfdig (Or.inl hne)]
        rfl
    next =>
      simp only [Option.some.injEq, Prod.mk.injEq] at h
      rw [← h.1, pyFloat?_digits hdig hne]
      rfl

theorem matchRatioAt_has_sep {l g1 g2 : List Char} (h : matchRatioAt l = some (g1, g2)) :
    ∃ c ∈ l, isSepChar c := by
  unfold matchRatioAt at h
  split at h
  · exact absurd h (by simp)
  next g r1 heq =>
    split at h
    · exact absurd h (by simp)
    next c r3 heq2 =>
      by_cases hc : isSepChar c
      · refine ⟨c, ?_, hc⟩
        have h1 : c ∈ r1.dropWhile Char.isWhitespace := by rw [heq2]; simp
        exact (matchNumAt_rest_sublist heq).subset
          ((dropWhile_sublist _ r1).subset h1)
      · simp [hc] at h

theorem searchRatio_eq_none {l : List Char} (h : ∀ c ∈ l, ¬ isSepChar c) :
    searchRatio l = none := by
  induction l with
  | nil => rfl
  | cons x t ih =>
    unfold searchRatio
    cases hm : matchRatioAt (x :: t) with
    | some m =>
      obtain ⟨c, hc, hsep⟩ := matchRatioAt_has_sep (hm.trans (congrArg some
        (Prod.mk.eta (p := m)).symm))
      exact absurd hsep (h c hc)
    | none => exact ih fun c hc => h c (by simp [hc])

theorem filter_filter_of_imp {p q : Char → Bool} (h : ∀ c, q c = true → p c = true)
    (l : List Char) : (l.filter p).filter q = l.filter q := by
  induction l with
  | nil => rfl
  | cons x xs ih =>
    by_cases hp : p x = true
    · rw [List.filter_cons_of_pos hp, List.filter_cons, List.filter_cons, ih]
    · have hq : q x = false := by
        cases hqx : q x
        · rfl
        · exact absurd (h x hqx) hp
      rw [List.filter_cons_of_neg hp, List.filter_cons_of_neg, ih]
      simp [hq]

theorem filter_space_digit (l : List Char) :
    ((l.filter fun c => c ≠ ' ').filter Char.isDigit) = l.filter Char.isDigit :=
  filter_filter_of_imp
    (fun c hc => by
      simp only [decide_eq_true_eq]
      intro he
      rw [he] at hc
      exact absurd hc (by decide)) l

/-- C7: for raw text with no separator or decimal characters (nor the `;`
and `,` that normalize into them), `parse_ratio` returns the integer value
of the concatenation of its digit characters (interpreted exactly in `ℚ` by
the second conjunct), or `none` when there is no digit; being a total Lean
function, it returns rather than raises on every input. -/
theorem parse_ratio_plain_digits (t : List Char)
    (h : ∀ c ∈ t, c ∉ ([';', ':', ',', '.', '/', 'x', 'X'] : List Char)) :
    parse_ratio t = (if (t.filter Char.isDigit).isEmpty then none
      else some ⟨(natVal (t.filter Char.isDigit) : ℤ), 1⟩) ∧
    PyFloat.toRat ⟨(natVal (t.filter Char.isDigit) : ℤ), 1⟩ =
      (natVal (t.filter Char.isDigit) : ℚ) := by
  constructor
  · have hnorm : normalizeSep t = t := normalizeSep_eq_self fun c hc => by
      have := h c hc; simp only [List.mem_cons] at this; tauto
    have hsearch : searchRatio t = none := searchRatio_eq_none fun c hc => by
      have := h c hc
      simp only [List.mem_cons, List.mem_singleton] at this
      simp only [isSepChar]
      push_neg at this
      simp [this.2.1, this.2.2.2.1, this.2.2.2.2.1, this.2.2.2.2.2]
    have hnodot : '.' ∉ t := fun hm => by simp at h; exact (h '.' hm).2.2.2.1 rfl
    rcases ht : t with _ | ⟨x, xs⟩
    · simp [parse_ratio, normalizeSep]
    · rw [← ht]
      have htne : t.isEmpty = false := by rw [ht]; rfl
      have hnodot2 : '.' ∉ t.filter fun c => c ≠ ' ' :=
        fun hm => hnodot (List.mem_of_mem_filter hm)
      simp only [parse_ratio, hnorm, hsearch, htne, Bool.false_eq_true, if_false,
        keepDigitsFirstDot_no_dot hnodot2, filter_space_digit]
      by_cases hempty : (t.filter Char.isDigit).isEmpty
      · simp [hempty]
      · have hne : t.filter Char.isDigit ≠ [] := by
          simpa [List.isEmpty_iff] using hempty
        simp only [hempty, Bool.false_eq_true, if_false]
        exact pyFloat?_digits (fun c hc => List.of_mem_filter hc) hne
  · simp [PyFloat.toRat]

/-- C7 witness at raw text `"9a8 7"`. -/
theorem parse_ratio_plain_digits_witness :
    (∀ c ∈ "9a8 7".data, c ∉ ([';', ':', ',', '.', '/', 'x', 'X'] : List Char)) ∧
    ((parse_ratio "9a8 7".data = (if ("9a8 7".data.filter Char.isDigit).isEmpty then none
      else some ⟨(natVal ("9a8 7".data.filter Char.isDigit) : ℤ), 1⟩)) ∧
    PyFloat.toRat ⟨(natVal ("9a8 7".data.filter Char.isDigit) : ℤ), 1⟩ =
      (natVal ("9a8 7".data.filter Char.isDigit) : ℚ)) :=
  ⟨by decide, parse_ratio_plain_digits "9a8 7".data (by decide)⟩

theorem searchRatio_exists_match {l : List Char} {m : List Char × List Char}
    (h : searchRatio l = some m) : ∃ l2, matchRatioAt l2 = some m := by
  induction l with
  | nil => exact absurd h (by simp [searchRatio])
  | cons x t ih =>
    unfold searchRatio at h
    cases hm : matchRatioAt (x :: t) with
    | some m2 => rw [hm] at h; exact ⟨x :: t, hm.trans h⟩
    | none => rw [hm] at h; exact ih h

/-- C8: whenever the (normalized) raw text contains a ratio pattern
`NUM sep NUM` with `sep ∈ {:, /, x, X}`, `parse_ratio` returns exactly the
parse of the second captured number of the first such pattern — a genuine
number (`isSome`); in particular `parse_ratio "12:34" = 34.0`,
`parse_ratio "1x7.5" = 7.5`, and `parse_ratio "" = None`. -/
theorem parse_ratio_second_number :
    (∀ t g1 g2, searchRatio (normalizeSep t) = some (g1, g2) →
      parse_ratio t = pyFloat? g2 ∧ (pyFloat? g2).isSome) ∧
    (parse_ratio "12:34".data).map PyFloat.toRat = some 34 ∧
    (parse_ratio "1x7.5".data).map PyFloat.toRat = some (15 / 2) ∧
    parse_ratio "".data = none := by
  refine ⟨fun t g1 g2 h => ?_, ?_, ?_, by decide⟩
  · have hne : (normalizeSep t).isEmpty = false := by
      rcases hn : normalizeSep t with _ | _
      · rw [hn] at h; exact absurd h (by simp [searchRatio])
      · rfl
    constructor
    · simp [parse_ratio, h, hne]
    · obtain ⟨l2, hm⟩ := searchRatio_exists_match h
      unfold matchRatioAt at hm
      split at hm
      · exact absurd hm (by simp)
      next g r1 heq =>
        split at hm
        · exact absurd hm (by simp)
        next c r3 heq2 =>
          by_cases hc : isSepChar c
          · simp only [hc, if_true] at hm
            split at hm
            next g2b rb heqb =>
              simp only [Option.some.injEq, Prod.mk.injEq] at hm
              rw [← hm.2]
              exact matchNumAt_group_pyFloat heqb
            · exact absurd hm (by simp)
          · simp [hc] at hm
  · have h : parse_ratio "12:34".data = some ⟨34, 1⟩ := by decide
    rw [h, Option.map_some']
    norm_num [PyFloat.toRat]
  · have h : parse_ratio "1x7.5".data = some ⟨75, 10⟩ := by decide
    rw [h, Option.map_some']
    norm_num [PyFloat.toRat]

/-- C8 witness: the general part applied at `"12:34"`. -/
theorem parse_ratio_second_number_witness :
    searchRatio (normalizeSep "12:34".data) = some ("12".data, "34".data) ∧
    (parse_ratio "12:34".data = pyFloat? "34".data ∧ (pyFloat? "34".data).isSome) :=
  ⟨by decide, parse_ratio_second_number.1 "12:34".data "12".data "34".data (by decide)⟩

/-! ### C10: unbounded regions take the leading-1 drop unconditionally -/

/-- C10: with neither bound configured, the in-range filter of the
ratio-split repair is vacuous, so whenever the raw text matches the ratio
pattern with a right side reading `1` and a parseable left side, and the
leading-1 drop produces a value, that value is returned (in preference to
the two-digit swap, which sits after it in the unsorted candidate list). -/
theorem compute_display_no_bounds_leading_one (raw : List Char) (value : PyFloat)
    (rr : RegionConfig) (lhs rhs : List Char) (d : PyFloat)
    (hmin : rr.expected_min = none) (hmax : rr.expected_max = none)
    (hsearch : searchRatio2 raw = some (lhs, rhs))
    (hrhs1 : (parse_ratio rhs).any (fun v => v.veq ⟨1, 1⟩) = true)
    (hlhs : (parse_ratio lhs).isSome = true)
    (hdrop : drop_leading_one lhs = some d) :
    compute_display raw value rr = some d := by
  have hrawne : raw.isEmpty = false := by
    rcases hr : raw with _ | _
    · rw [hr] at hsearch; exact absurd hsearch (by simp [searchRatio2])
    · rfl
  have hlhsne : lhs.isEmpty = false := by
    rcases hl : lhs with _ | _
    · rw [hl] at hlhs; exact absurd hlhs (by decide)
    · rfl
  have hsplit : split_ratio_raw raw = (raw, some lhs) := by
    simp [split_ratio_raw, hrawne, hsearch, hrhs1, hlhs]
  simp only [compute_display, hsplit, hlhsne, Bool.not_false, if_true,
    Option.getD_some]
  have hrepair : ratioRepair raw rr = some d := by
    simp only [ratioRepair, hsearch, hrhs1, hlhsne]
    simp only [within_range, hmin, hmax, hdrop]
    simp
  simp [hrepair]

/-- C10 witness: `compute_display "12:1"` with no bounds returns the dropped
left side `2.0`. -/
theorem compute_display_no_bounds_leading_one_witness :
    ((⟨"", none, none, false⟩ : RegionConfig).expected_min = none ∧
     (⟨"", none, none, false⟩ : RegionConfig).expected_max = none ∧
     searchRatio2 "12:1".data = some ("12".data, "1".data) ∧
     (parse_ratio "1".data).any (fun v => v.veq ⟨1, 1⟩) = true ∧
     (parse_ratio "12".data).isSome = true ∧
     drop_leading_one "12".data = some ⟨2, 1⟩) ∧
    compute_display "12:1".data ⟨1, 1⟩ ⟨"", none, none, false⟩ = some ⟨2, 1⟩ ∧
    PyFloat.toRat ⟨2, 1⟩ = 2 :=
  ⟨⟨rfl, rfl, by decide, by decide, by decide, by decide⟩,
   compute_display_no_bounds_leading_one "12:1".data ⟨1, 1⟩ ⟨"", none, none, false⟩
     "12".data "1".data ⟨2, 1⟩ rfl rfl (by decide) (by decide) (by decide) (by decide),
   by norm_num [PyFloat.toRat]⟩

/-! ### C5: the `"1125"` recovery scenario -/

/-- C5 counterexample: with `expectedMin = 1`, `expectedMax = 50`, the
pipeline on raw `"1125"` (parsed value `1125.0`) returns `1.125` when
`expectedIntegerOnly` is false and `1.0` when it is true — in neither case
one of the claimed values `12.5`, `1.25`, `11.25`, `25`.  (The merged-one
heuristic rejects `125 ∉ [1, 50]`, and the final range search only inserts a
decimal point into the full digit string, or scans substrings shortest
first, so `1.125` respectively `1` is found first.) -/
theorem compute_display_1125_counterexample :
    compute_display "1125".data ⟨1125, 1⟩ ⟨"", some ⟨1, 1⟩, some ⟨50, 1⟩, false⟩ =
      some ⟨1125, 1000⟩ ∧
    compute_display "1125".data ⟨1125, 1⟩ ⟨"", some ⟨1, 1⟩, some ⟨50, 1⟩, true⟩ =
      some ⟨1, 1⟩ ∧
    PyFloat.toRat ⟨1125, 1000⟩ = 9 / 8 ∧ PyFloat.toRat ⟨1, 1⟩ = 1 ∧
    (9 / 8 : ℚ) ≠ 25 / 2 ∧ (9 / 8 : ℚ) ≠ 5 / 4 ∧ (9 / 8 : ℚ) ≠ 45 / 4 ∧
    (9 / 8 : ℚ) ≠ 25 ∧
    (1 : ℚ) ≠ 25 / 2 ∧ (1 : ℚ) ≠ 5 / 4 ∧ (1 : ℚ) ≠ 45 / 4 ∧ (1 : ℚ) ≠ 25 := by
  refine ⟨by decide, by decide, ?_, ?_, ?_, ?_, ?_, ?_, ?_, ?_, ?_, ?_⟩ <;>
    norm_num [PyFloat.toRat]

/-- C5 (amended): with `expectedMin = 1`, `expectedMax = 50`, raw `"1125"`
with its parsed value `1125.0` deterministically recovers `1.125` when
`expectedIntegerOnly` is false (the first in-range decimal-point insertion
into the digit string, scan order left to right) and `1.0` when it is true
(the first in-range substring, shortest length first, then leftmost) — the
same value under both decimal rules, identical across runs. -/
theorem compute_display_1125_recovery :
    compute_display "1125".data ⟨1125, 1⟩ ⟨"", some ⟨1, 1⟩, some ⟨50, 1⟩, false⟩ =
      some ⟨1125, 1000⟩ ∧
    compute_display "1125".data ⟨1125, 1⟩
      ⟨"tail_zero_two_dp", some ⟨1, 1⟩, some ⟨50, 1⟩, false⟩ = some ⟨1125, 1000⟩ ∧
    compute_display "1125".data ⟨1125, 1⟩ ⟨"", some ⟨1, 1⟩, some ⟨50, 1⟩, true⟩ =
      some ⟨1, 1⟩ ∧
    compute_display "1125".data ⟨1125, 1⟩
      ⟨"tail_zero_two_dp", some ⟨1, 1⟩, some ⟨50, 1⟩, true⟩ = some ⟨1, 1⟩ ∧
    PyFloat.toRat ⟨1125, 1000⟩ = 9 / 8 ∧ PyFloat.toRat ⟨1, 1⟩ = 1 := by
  refine ⟨by decide, by decide, by decide, by decide, ?_, ?_⟩ <;>
    norm_num [PyFloat.toRat]

/-! ### C2: the expected-range digit search -/


theorem findSome?_congr {α β : Type} {l : List α} {f g : α → Option β}
    (h : ∀ x ∈ l, f x = g x) : l.findSome? f = l.findSome? g := by
  induction l with
  | nil => rfl
  | cons x xs ih =>
    rw [List.findSome?_cons, List.findSome?_cons, h x (by simp),
      ih fun x hx => h x (by simp [hx])]

theorem findSome?_guard {α β : Type} (f : α → β) (p : β → Bool) (l : List α) :
    (l.findSome? fun x => if p (f x) then some (f x) else none) =
      (l.map f).find? p := by
  induction l with
  | nil => rfl
  | cons x xs ih =>
    rw [List.findSome?_cons, List.map_cons, List.find?_cons]
    cases hp : p (f x)
    · simp only [hp, Bool.false_eq_true, if_false]
      exact ih
    · simp only [hp, if_true]

theorem find?_flatMap {α β : Type} (l : List α) (g : α → List β) (p : β → Bool) :
    (l.flatMap g).find? p = l.findSome? fun a => (g a).find? p := by
  induction l with
  | nil => rfl
  | cons x xs ih =>
    rw [List.flatMap_cons, List.find?_append, List.findSome?_cons, ih]
    cases h : (g x).find? p <;> simp

theorem aer_int_eq_scan (digits : List Char) (mn mx : PyFloat)
    (hall : ∀ c ∈ digits, c.isDigit) :
    aer_int digits mn mx =
      (intScanValues digits).find? fun q => mn.le q && q.le mx := by
  unfold aer_int intScanValues
  rw [find?_flatMap]
  refine findSome?_congr fun len hlen => ?_
  rw [List.mem_range'] at hlen
  obtain ⟨i, hi, rfl⟩ := hlen
  have hlen1 : 1 ≤ 1 + 1 * i := by omega
  have hlenn : 1 + 1 * i ≤ digits.length := by omega
  rw [← findSome?_guard (fun s => (⟨(natVal ((digits.drop s).take (1 + 1 * i)) : ℤ), 1⟩ : PyFloat))
    (fun q => mn.le q && q.le mx)]
  refine findSome?_congr fun s hs => ?_
  rw [List.mem_range] at hs
  have hchunkall : ∀ c ∈ (digits.drop s).take (1 + 1 * i), c.isDigit :=
    fun c hc => hall c (List.mem_of_mem_drop (List.mem_of_mem_take hc))
  have hchunklen : ((digits.drop s).take (1 + 1 * i)).length = 1 + 1 * i := by
    rw [List.length_take, List.length_drop]
    omega
  have hchunkne : (digits.drop s).take (1 + 1 * i) ≠ [] := by
    refine List.ne_nil_of_length_pos ?_
    rw [List.length_take, List.length_drop]
    omega
  rw [pyFloat?_digits hchunkall hchunkne]

theorem aer_dot_eq_scan (digits : List Char) (mn mx : PyFloat)
    (hall : ∀ c ∈ digits, c.isDigit) (hlen : 2 ≤ digits.length) :
    aer_dot digits mn mx =
      (dotScanValues digits).find? fun q => mn.le q && q.le mx := by
  unfold aer_dot dotScanValues
  rw [← findSome?_guard (fun i => (⟨(natVal digits : ℤ), 10 ^ (digits.length - i)⟩ : PyFloat))
    (fun q => mn.le q && q.le mx)]
  refine findSome?_congr fun i hi => ?_
  rw [List.mem_range'] at hi
  obtain ⟨j, hj, rfl⟩ := hi
  have h1 : 1 ≤ 1 + 1 * j := by omega
  have h2 : 1 + 1 * j ≤ digits.length - 1 := by omega
  have htne : digits.take (1 + 1 * j) ≠ [] := by
    refine List.ne_nil_of_length_pos ?_
    rw [List.length_take]
    omega
  have hta : ∀ c ∈ digits.take (1 + 1 * j), c.isDigit :=
    fun c hc => hall c (List.mem_of_mem_take hc)
  have hda : ∀ c ∈ digits.drop (1 + 1 * j), c.isDigit :=
    fun c hc => hall c (List.mem_of_mem_drop hc)
  rw [pyFloat?_digits_dot_digits hta hda (Or.inl htne), List.take_append_drop,
    List.length_drop]

/-- C2 counterexample: in decimal mode the search does not examine all
contiguous substrings.  On raw `"99"` with value `0` out of the configured
range `[9, 9]`, the digit `"9"` is a contiguous substring of the digit
string whose value `9` lies inside the range, yet the search returns `none`
(it only tries `9.9`). -/
theorem apply_expected_range_99_counterexample :
    apply_expected_range "99".data ⟨0, 1⟩ (some ⟨9, 1⟩) (some ⟨9, 1⟩) false = none ∧
    (['9'] <:+: "99".data.filter Char.isDigit) ∧
    natVal ['9'] = 9 ∧
    ((⟨9, 1⟩ : PyFloat).le ⟨(natVal ['9'] : ℤ), 1⟩ &&
      (⟨(natVal ['9'] : ℤ), 1⟩ : PyFloat).le ⟨9, 1⟩) = true ∧
    ((⟨9, 1⟩ : PyFloat).le ⟨0, 1⟩ && (⟨0, 1⟩ : PyFloat).le ⟨9, 1⟩) = false := by
  refine ⟨by decide, ⟨['9'], [], by decide⟩, by decide, by decide, by decide⟩

/-- C2 (amended): when both bounds are configured, the value is out of
range, and at least two digits are present, the search returns the first
in-range value of its scan list — in integer mode the whole-integer values
of all contiguous substrings of the digit string, shortest length first then
leftmost; in decimal mode only the full digit string with a decimal point
inserted at each interior position, leftmost first — and `none` exactly when
no scanned value is in range. -/
theorem apply_expected_range_scan_order (raw : List Char) (v mn mx : PyFloat)
    (io : Bool) (hout : (mn.le v && v.le mx) = false)
    (hlen : 2 ≤ (raw.filter Char.isDigit).length) :
    apply_expected_range raw v (some mn) (some mx) io =
      (if io then intScanValues (raw.filter Char.isDigit)
       else dotScanValues (raw.filter Char.isDigit)).find?
        fun q => mn.le q && q.le mx := by
  have hall : ∀ c ∈ raw.filter Char.isDigit, c.isDigit :=
    fun c hc => List.of_mem_filter hc
  have hnotlt : ¬((raw.filter Char.isDigit).length < 2) := by omega
  simp only [apply_expected_range, hout, Bool.false_eq_true, if_false, hnotlt]
  cases io
  · simp only [Bool.false_eq_true, if_false]
    exact aer_dot_eq_scan _ mn mx hall hlen
  · simp only [if_true]
    exact aer_int_eq_scan _ mn mx hall

/-- C2 witness: the amended search applied to raw `"1125"`, value `1125`,
range `[1, 50]`, decimal mode. -/
theorem apply_expected_range_scan_order_witness :
    ((⟨1, 1⟩ : PyFloat).le ⟨1125, 1⟩ && (⟨1125, 1⟩ : PyFloat).le ⟨50, 1⟩) = false ∧
    2 ≤ ("1125".data.filter Char.isDigit).length ∧
    apply_expected_range "1125".data ⟨1125, 1⟩ (some ⟨1, 1⟩) (some ⟨50, 1⟩) false =
      (if false then intScanValues ("1125".data.filter Char.isDigit)
       else dotScanValues ("1125".data.filter Char.isDigit)).find?
        (fun q => (⟨1, 1⟩ : PyFloat).le q && q.le ⟨50, 1⟩) :=
  ⟨by decide, by decide,
   apply_expected_range_scan_order "1125".data ⟨1125, 1⟩ ⟨1, 1⟩ ⟨50, 1⟩ false
     (by decide) (by decide)⟩

/-! ### C4: engine errors in the ensemble -/


/-- C4: `ocr_candidates` has no `try`/`except` around the recognize call, so
one failing pairing aborts the whole ensemble: with a recognizer that raises
only for `psm8`, the result is the propagated error — not a candidate list
with that single pairing excluded — even though the same preprocessing with
a total recognizer yields all four candidates. -/
theorem ocr_candidates_propagates_engine_error :
    ocr_candidates psm8FailingRecognize () [("gray", id)] =
      Except.error "engine failure" ∧
    ocr_candidates (fun _ _ => Except.ok "12:34") () [("gray", id)] =
      Except.ok [("gray:psm7", "12:34".data, some ⟨34, 1⟩),
                 ("gray:psm8", "12:34".data, some ⟨34, 1⟩),
                 ("gray:psm6", "12:34".data, some ⟨34, 1⟩),
                 ("gray:psm13", "12:34".data, some ⟨34, 1⟩)] := by
  exact ⟨rfl, rfl⟩

/-! ### C6: connected-component cleaning -/

/-- C6 counterexample: in `diagSpeckImg` the pixel `(0, 4)` forms its own
8-connected component of area `1`, below the claim's drop threshold
`cleanMinAreaRatio × cropArea = (1/32) × 64 = 2`, so by the claim it must
become background; but the diagonal component's bounding box is the whole
crop and the code copies surviving bounding boxes wholesale, so the speck
survives cleaning with its value `255`. -/
theorem clean_binary_bbox_counterexample :
    pxAt diagSpeckImg 0 4 = 255 ∧
    compOf (fgPixels diagSpeckImg) (0, 4) = [(0, 4)] ∧
    ((compStats (compOf (fgPixels diagSpeckImg) (0, 4))).area : ℚ) <
      (1 / 32) * (8 * 8) ∧
    pxAt (clean_binary diagSpeckImg ⟨1, 32⟩ ⟨0, 1⟩ ⟨0, 1⟩ 0) 0 4 = 255 := by
  refine ⟨by decide, by decide, ?_, by decide⟩
  have h : (compStats (compOf (fgPixels diagSpeckImg) (0, 4))).area = 1 := by decide
  rw [h]
  norm_num


theorem foldl_min_le (f : ℕ × ℕ → ℕ) (t : List (ℕ × ℕ)) :
    ∀ init, (∀ p ∈ t, t.foldl (fun a x => min a (f x)) init ≤ f p) ∧
      t.foldl (fun a x => min a (f x)) init ≤ init := by
  induction t with
  | nil => exact fun init => ⟨by simp, le_refl _⟩
  | cons q t ih =>
    intro init
    obtain ⟨h1, h2⟩ := ih (min init (f q))
    refine ⟨?_, ?_⟩
    · intro p hp
      rcases List.mem_cons.1 hp with rfl | hp
      · exact le_trans h2 (min_le_right _ _)
      · exact h1 p hp
    · exact le_trans h2 (min_le_left _ _)

theorem le_foldl_max (f : ℕ × ℕ → ℕ) (t : List (ℕ × ℕ)) :
    ∀ init, (∀ p ∈ t, f p ≤ t.foldl (fun a x => max a (f x)) init) ∧
      init ≤ t.foldl (fun a x => max a (f x)) init := by
  induction t with
  | nil => exact fun init => ⟨by simp, le_refl _⟩
  | cons q t ih =>
    intro init
    obtain ⟨h1, h2⟩ := ih (max init (f q))
    refine ⟨?_, ?_⟩
    · intro p hp
      rcases List.mem_cons.1 hp with rfl | hp
      · exact le_trans (le_max_right _ _) h2
      · exact h1 p hp
    · exact le_trans (le_max_left _ _) h2

/-- Every pixel of a component lies inside its bounding-box statistics. -/
theorem mem_comp_bboxContains {comp : List (ℕ × ℕ)} {p : ℕ × ℕ} (hp : p ∈ comp) :
    bboxContains comp p.1 p.2 := by
  rcases comp with _ | ⟨q, t⟩
  · simp at hp
  · unfold bboxContains compStats
    simp only
    obtain ⟨hminr, hminr0⟩ := foldl_min_le Prod.fst t q.1
    obtain ⟨hmaxr, hmaxr0⟩ := le_foldl_max Prod.fst t q.1
    obtain ⟨hminc, hminc0⟩ := foldl_min_le Prod.snd t q.2
    obtain ⟨hmaxc, hmaxc0⟩ := le_foldl_max Prod.snd t q.2
    rcases List.mem_cons.1 hp with rfl | hp
    · refine ⟨hminr0, ?_, hminc0, ?_⟩
      · have := hmaxr0; omega
      · have := hmaxc0; omega
    · refine ⟨hminr p hp, ?_, hminc p hp, ?_⟩
      · have h1 := hmaxr p hp
        have h2 := hminr p hp
        omega
      · have h1 := hmaxc p hp
        have h2 := hminc p hp
        omega

theorem pxAt_grid (f : ℕ → ℕ → ℕ) {h w r c : ℕ} (hr : r < h) (hc : c < w) :
    pxAt ((List.range h).map fun r2 => (List.range w).map fun c2 => f r2 c2) r c =
      f r c := by
  have h1 : ((List.range h).map fun r2 => (List.range w).map fun c2 => f r2 c2).getD r []
      = (List.range w).map fun c2 => f r c2 := by
    rw [List.getD_eq_getElem?_getD, List.getElem?_map, List.getElem?_range hr]
    rfl
  have h2 : ((List.range w).map fun c2 => f r c2).getD c 0 = f r c := by
    rw [List.getD_eq_getElem?_getD, List.getElem?_map, List.getElem?_range hc]
    rfl
  unfold pxAt
  rw [h1, h2]

theorem mem_fgPixels_lt {img : List (List ℕ)} {p : ℕ × ℕ} (hp : p ∈ fgPixels img) :
    p.1 < img.length ∧ p.2 < (img.headD []).length := by
  unfold fgPixels at hp
  rw [List.mem_flatten] at hp
  obtain ⟨l, hl, hpl⟩ := hp
  rw [List.mem_map] at hl
  obtain ⟨r, hr, rfl⟩ := hl
  rw [List.mem_filterMap] at hpl
  obtain ⟨c, hc, hcc⟩ := hpl
  by_cases hnz : pxAt img r c ≠ 0
  · rw [if_pos hnz] at hcc
    cases hcc
    exact ⟨List.mem_range.1 hr, List.mem_range.1 hc⟩
  · rw [if_neg hnz] at hcc
    cases hcc

theorem growComp_subset {fg s : List (ℕ × ℕ)} (hs : ∀ p ∈ s, p ∈ fg) :
    ∀ p ∈ growComp fg s, p ∈ fg := by
  intro p hp
  rcases List.mem_append.1 hp with h | h
  · exact hs p h
  · exact List.mem_of_mem_filter h

theorem compClosure_subset {fg : List (ℕ × ℕ)} :
    ∀ (n : ℕ) (s : List (ℕ × ℕ)), (∀ p ∈ s, p ∈ fg) →
      ∀ p ∈ compClosure fg n s, p ∈ fg := by
  intro n
  induction n with
  | zero => exact fun s hs => hs
  | succ n ih => exact fun s hs => ih _ (growComp_subset hs)

theorem compOf_subset {fg : List (ℕ × ℕ)} {q : ℕ × ℕ} (hq : q ∈ fg) :
    ∀ p ∈ compOf fg q, p ∈ fg :=
  compClosure_subset _ _ fun _ hp => (List.mem_singleton.1 hp).symm ▸ hq

theorem componentsFrom_subset {fg : List (ℕ × ℕ)} :
    ∀ (rest : List (ℕ × ℕ)) (acc : List (List (ℕ × ℕ))),
      (∀ q ∈ rest, q ∈ fg) → (∀ comp ∈ acc, ∀ p ∈ comp, p ∈ fg) →
      ∀ comp ∈ componentsFrom fg rest acc, ∀ p ∈ comp, p ∈ fg := by
  intro rest
  induction rest with
  | nil =>
    intro acc _ hacc comp hcomp
    unfold componentsFrom at hcomp
    exact hacc comp (List.mem_reverse.1 hcomp)
  | cons q rest ih =>
    intro acc hrest hacc comp hcomp
    unfold componentsFrom at hcomp
    split at hcomp
    · exact ih acc (fun q2 h2 => hrest q2 (List.mem_cons_of_mem q h2))
        hacc comp hcomp
    · refine ih _ (fun q2 h2 => hrest q2 (List.mem_cons_of_mem q h2))
        ?_ comp hcomp
      intro c hc p hp
      rcases List.mem_cons.1 hc with rfl | hc
      · exact compOf_subset (hrest q (List.mem_cons_self q rest)) p hp
      · exact hacc c hc p hp

theorem components_subset {img : List (List ℕ)} :
    ∀ comp ∈ components img, ∀ p ∈ comp, p ∈ fgPixels img :=
  componentsFrom_subset _ [] (fun _ hq => hq) (by simp)

/-- Pixel values of a binary image are `0` or `255` everywhere (out-of-range
reads default to `0`). -/
theorem pxAt_binary {img : List (List ℕ)}
    (hbin : ∀ row ∈ img, ∀ v ∈ row, v = 0 ∨ v = 255) (r c : ℕ) :
    pxAt img r c = 0 ∨ pxAt img r c = 255 := by
  unfold pxAt
  by_cases hr : r < img.length
  · have hrow : img.getD r [] ∈ img := by
      rw [List.getD_eq_getElem?_getD, List.getElem?_eq_getElem hr]
      exact List.getElem_mem hr
    by_cases hc : c < (img.getD r []).length
    · rw [List.getD_eq_getElem?_getD (img.getD r []), List.getElem?_eq_getElem hc]
      exact hbin _ hrow _ (List.getElem_mem hc)
    · rw [List.getD_eq_getElem?_getD (img.getD r []),
        List.getElem?_eq_none (by omega)]
      exact Or.inl rfl
  · have h0 : img.getD r [] = [] := by
      rw [List.getD_eq_getElem?_getD, List.getElem?_eq_none (by omega)]
      rfl
    rw [h0]
    exact Or.inl rfl

/-- Reading an in-range pixel of the inverted image gives `255` minus the
input pixel. -/
theorem pxAt_map_inv {img : List (List ℕ)} (r c : ℕ) (hr : r < img.length)
    (hc : c < (img.getD r []).length) :
    pxAt (img.map fun row => row.map (255 - ·)) r c = 255 - pxAt img r c := by
  have h1 : (img.map fun row => row.map (255 - ·)).getD r []
      = (img.getD r []).map (255 - ·) := by
    rw [List.getD_eq_getElem?_getD, List.getElem?_map, List.getElem?_eq_getElem hr,
      List.getD_eq_getElem?_getD, List.getElem?_eq_getElem hr]
    rfl
  have h2 : pxAt img r c = (img.getD r [])[c] := by
    unfold pxAt
    rw [List.getD_eq_getElem?_getD (img.getD r []), List.getElem?_eq_getElem hc]
    rfl
  have h3 : pxAt (img.map fun row => row.map (255 - ·)) r c
      = ((img.getD r []).map (255 - ·)).getD c 0 := by
    unfold pxAt
    rw [h1]
  have hc3 : c < ((img.getD r []).map (255 - ·)).length := by
    rw [List.length_map]
    exact hc
  have h4 : ((img.getD r []).map (255 - ·)).getD c 0 = 255 - (img.getD r [])[c] := by
    rw [List.getD_eq_getElem?_getD, List.getElem?_eq_getElem hc3]
    simp
  rw [h3, h4, h2]

theorem cbInv_length (img : List (List ℕ)) : (cbInv img).length = img.length := by
  unfold cbInv
  split
  · exact List.length_map _ _
  · rfl

theorem cbInv_headD_length (img : List (List ℕ)) :
    ((cbInv img).headD []).length = (img.headD []).length := by
  unfold cbInv
  split
  · cases img with
    | nil => rfl
    | cons row t => simp [List.map_cons, List.headD_cons, List.length_map]
  · rfl

/-- Unfolding of `clean_binary`: no foreground component returns the input;
otherwise the kept grid holds the (possibly inverted) input inside the union
of the surviving components' bounding boxes and `0` outside, re-inverted at
the end when the input was inverted. -/
theorem clean_binary_unfold (img : List (List ℕ))
    (mar lmr lmar : PyFloat) (lmw : ℤ) :
    clean_binary img mar lmr lmar lmw =
      if (components (cbInv img)).isEmpty then img
      else
        let keep := (List.range img.length).map fun r =>
          (List.range (img.headD []).length).map fun c =>
            if (components (cbInv img)).any (fun comp =>
                keepComp img.length (img.headD []).length mar lmr lmar lmw comp &&
                decide (bboxContains comp r c))
            then pxAt (cbInv img) r c else 0
        if cbInverted img then keep.map (fun row => row.map (255 - ·)) else keep := by
  unfold clean_binary cbInv cbInverted
  simp only [List.any_filter]
  rfl

/-- C6 (amended): for every binary crop (rectangular, pixel values `0` or
`255`), connected-component cleaning labels the 8-connected foreground
components — inverting first when the mean brightness exceeds `127` — and
keeps exactly those passing the survival test (area at least
`max(8, int(cleanMinAreaRatio × cropArea))` and not a small left-margin
component).  With no foreground component the crop is returned unchanged
(first conjunct); otherwise every pixel inside the union of the surviving
components' bounding boxes keeps its input value and every pixel outside
that union becomes background — `0`, or `255` after re-inversion when the
crop was inverted (second conjunct); in particular every pixel of a
surviving component is preserved exactly (third conjunct); hence the
synthetic crop with a centred glyph blob and a thin left-edge artifact
narrower than `cleanLeftMaxWidth`, lying outside the glyph's bounding box,
loses exactly the artifact (fourth conjunct). -/
theorem clean_binary_keeps_bbox_union (img : List (List ℕ))
    (mar lmr lmar : PyFloat) (lmw : ℤ)
    (hbin : ∀ row ∈ img, ∀ v ∈ row, v = 0 ∨ v = 255)
    (hrect : ∀ row ∈ img, row.length = (img.headD []).length) :
    (components (cbInv img) = [] → clean_binary img mar lmr lmar lmw = img) ∧
    (∀ r c, components (cbInv img) ≠ [] → r < img.length →
      c < (img.headD []).length →
      pxAt (clean_binary img mar lmr lmar lmw) r c =
        if (components (cbInv img)).any (fun comp =>
            keepComp img.length (img.headD []).length mar lmr lmar lmw comp &&
            decide (bboxContains comp r c))
        then pxAt img r c
        else if cbInverted img then 255 else 0) ∧
    (∀ comp ∈ components (cbInv img),
      keepComp img.length (img.headD []).length mar lmr lmar lmw comp = true →
      ∀ p ∈ comp, pxAt (clean_binary img mar lmr lmar lmw) p.1 p.2 =
        pxAt img p.1 p.2) ∧
    clean_binary glyphArtifactImg ⟨0, 1⟩ ⟨1, 5⟩ ⟨0, 1⟩ 2 = glyphOnlyImg := by
  have hmaster := clean_binary_unfold img mar lmr lmar lmw
  have hchar : ∀ r c, components (cbInv img) ≠ [] → r < img.length →
      c < (img.headD []).length →
      pxAt (clean_binary img mar lmr lmar lmw) r c =
        if (components (cbInv img)).any (fun comp =>
            keepComp img.length (img.headD []).length mar lmr lmar lmw comp &&
            decide (bboxContains comp r c))
        then pxAt img r c
        else if cbInverted img then 255 else 0 := by
    intro r c hne hr hc
    have hce : (components (cbInv img)).isEmpty = false := by
      rcases h2 : components (cbInv img) with _ | _
      · exact absurd h2 hne
      · rfl
    rw [hmaster]
    simp only [hce, Bool.false_eq_true, if_false]
    cases hinv : cbInverted img
    · have hcbinv : cbInv img = img := by
        unfold cbInv
        rw [hinv]
        rfl
      simp only [Bool.false_eq_true, if_false]
      rw [pxAt_grid _ hr hc, hcbinv]
    · simp only [if_true]
      have hmapgrid :
          ((List.range img.length).map fun r2 =>
            (List.range (img.headD []).length).map fun c2 =>
              if (components (cbInv img)).any (fun comp =>
                  keepComp img.length (img.headD []).length mar lmr lmar lmw comp &&
                  decide (bboxContains comp r2 c2))
              then pxAt (cbInv img) r2 c2 else 0).map
            (fun row => row.map (255 - ·)) =
          (List.range img.length).map fun r2 =>
            (List.range (img.headD []).length).map fun c2 =>
              255 - (if (components (cbInv img)).any (fun comp =>
                  keepComp img.length (img.headD []).length mar lmr lmar lmw comp &&
                  decide (bboxContains comp r2 c2))
                then pxAt (cbInv img) r2 c2 else 0) := by
        rw [List.map_map]
        refine List.map_congr_left fun r2 _ => ?_
        simp [Function.comp, List.map_map]
      rw [hmapgrid, pxAt_grid _ hr hc]
      cases hany : (components (cbInv img)).any (fun comp =>
          keepComp img.length (img.headD []).length mar lmr lmar lmw comp &&
          decide (bboxContains comp r c))
      · simp [hany]
      · simp only [hany, if_true]
        have hcbinv : cbInv img = img.map fun row => row.map (255 - ·) := by
          unfold cbInv
          rw [hinv]
          rfl
        have hrow : img.getD r [] ∈ img := by
          rw [List.getD_eq_getElem?_getD, List.getElem?_eq_getElem hr]
          exact List.getElem_mem hr
        have hc2 : c < (img.getD r []).length := by
          rw [hrect _ hrow]
          exact hc
        rw [hcbinv, pxAt_map_inv r c hr hc2]
        rcases pxAt_binary hbin r c with h | h <;> rw [h]
  refine ⟨?_, hchar, ?_, by decide⟩
  · intro h
    rw [hmaster, h]
    rfl
  · intro comp hcomp hkeep p hp
    have hfg := components_subset comp hcomp p hp
    obtain ⟨hr, hc⟩ := mem_fgPixels_lt hfg
    rw [cbInv_length] at hr
    rw [cbInv_headD_length] at hc
    have hne : components (cbInv img) ≠ [] := List.ne_nil_of_mem hcomp
    rw [hchar p.1 p.2 hne hr hc, if_pos]
    refine List.any_eq_true.2 ⟨comp, hcomp, ?_⟩
    rw [hkeep, Bool.true_and]
    exact decide_eq_true (mem_comp_bboxContains hp)

/-- C6 witness: the amended characterization applied to the light-background
crop `invSpeckImg`, which takes the inverted branch; the speck pixel
`(0, 4)` sits inside the surviving diagonal component's bounding box and so
keeps its input value. -/
theorem clean_binary_keeps_bbox_union_witness :
    (∀ row ∈ invSpeckImg, ∀ v ∈ row, v = 0 ∨ v = 255) ∧
    (∀ row ∈ invSpeckImg, row.length = (invSpeckImg.headD []).length) ∧
    components (cbInv invSpeckImg) ≠ [] ∧ cbInverted invSpeckImg = true ∧
    pxAt (clean_binary invSpeckImg ⟨1, 32⟩ ⟨0, 1⟩ ⟨0, 1⟩ 0) 0 4 =
      (if (components (cbInv invSpeckImg)).any (fun comp =>
          keepComp invSpeckImg.length (invSpeckImg.headD []).length
            ⟨1, 32⟩ ⟨0, 1⟩ ⟨0, 1⟩ 0 comp &&
          decide (bboxContains comp 0 4))
        then pxAt invSpeckImg 0 4
        else if cbInverted invSpeckImg then 255 else 0) :=
  ⟨by decide, by decide, by decide, by decide,
    (clean_binary_keeps_bbox_union invSpeckImg ⟨1, 32⟩ ⟨0, 1⟩ ⟨0, 1⟩ 0
      (by decide) (by decide)).2.1 0 4 (by decide) (by decide) (by decide)⟩

/-! ### C1: the candidate selector -/

theorem pyTupleLt_irrefl : ∀ a, pyTupleLt a a = false := by
  intro a
  induction a with
  | nil => rfl
  | cons x xs ih => simp [pyTupleLt, ih]

theorem pyTupleLt_trans : ∀ a b c, pyTupleLt a b = true → pyTupleLt b c = true →
    pyTupleLt a c = true := by
  intro a
  induction a with
  | nil =>
    intro b c hab hbc
    cases b with
    | nil => exact absurd hab (by simp [pyTupleLt])
    | cons y ys =>
      cases c with
      | nil => exact absurd hbc (by simp [pyTupleLt])
      | cons z zs => rfl
  | cons x xs ih =>
    intro b c hab hbc
    cases b with
    | nil => exact absurd hab (by simp [pyTupleLt])
    | cons y ys =>
      cases c with
      | nil => exact absurd hbc (by simp [pyTupleLt])
      | cons z zs =>
        simp only [pyTupleLt] at hab hbc ⊢
        by_cases hxy : x < y
        · by_cases hyz : y < z
          · rw [if_pos (by omega)]
          · simp only [if_neg hyz] at hbc
            by_cases hzy : z < y
            · simp [hzy] at hbc
            · rw [if_pos (by omega)]
        · simp only [if_neg hxy] at hab
          by_cases hyx : y < x
          · simp [hyx] at hab
          · rw [if_neg hyx] at hab
            have hxey : x = y := by omega
            subst hxey
            by_cases hyz : x < z
            · rw [if_pos hyz]
            · simp only [if_neg hyz] at hbc ⊢
              by_cases hzy : z < x
              · simp [hzy] at hbc
              · simp only [if_neg hzy] at hbc ⊢
                exact ih ys zs hab hbc

theorem pyTupleLt_asymm {a b : List ℤ} (h : pyTupleLt a b = true) :
    pyTupleLt b a = false := by
  cases h2 : pyTupleLt b a
  · rfl
  · exact absurd (pyTupleLt_trans a b a h h2) (by simp [pyTupleLt_irrefl])

theorem pyTupleLt_total : ∀ a b, pyTupleLt a b = true ∨ a = b ∨ pyTupleLt b a = true := by
  intro a
  induction a with
  | nil =>
    intro b
    cases b with
    | nil => exact Or.inr (Or.inl rfl)
    | cons y ys => exact Or.inl rfl
  | cons x xs ih =>
    intro b
    cases b with
    | nil => exact Or.inr (Or.inr rfl)
    | cons y ys =>
      by_cases hxy : x < y
      · exact Or.inl (by simp [pyTupleLt, hxy])
      · by_cases hyx : y < x
        · exact Or.inr (Or.inr (by simp [pyTupleLt, hyx]))
        · have hxey : x = y := by omega
          subst hxey
          rcases ih ys with h | h | h
          · exact Or.inl (by simp [pyTupleLt, h])
          · exact Or.inr (Or.inl (by rw [h]))
          · exact Or.inr (Or.inr (by simp [pyTupleLt, h]))

theorem exists_max_first {α : Type} (f : α → List ℤ) :
    ∀ (l : List α), l ≠ [] → ∃ m ∈ l, ∀ d ∈ l, pyTupleLt (f m) (f d) = false := by
  intro l
  induction l with
  | nil => simp
  | cons x t ih =>
    intro _
    by_cases ht : t = []
    · subst ht
      refine ⟨x, by simp, fun d hd => ?_⟩
      rcases List.mem_singleton.1 hd with rfl
      exact pyTupleLt_irrefl _
    · obtain ⟨m, hm, hmax⟩ := ih ht
      by_cases hx : pyTupleLt (f m) (f x) = true
      · refine ⟨x, by simp, fun d hd => ?_⟩
        rcases List.mem_cons.1 hd with rfl | hd
        · exact pyTupleLt_irrefl _
        · cases hlt : pyTupleLt (f x) (f d)
          · rfl
          · exact absurd (pyTupleLt_trans _ _ _ hx hlt) (by simp [hmax d hd])
      · refine ⟨m, List.mem_cons_of_mem _ hm, fun d hd => ?_⟩
        rcases List.mem_cons.1 hd with rfl | hd
        · simpa using hx
        · exact hmax d hd

theorem find?_congr {α : Type} {l : List α} {p q : α → Bool}
    (h : ∀ x ∈ l, p x = q x) : l.find? p = l.find? q := by
  induction l with
  | nil => rfl
  | cons x xs ih =>
    rw [List.find?_cons, List.find?_cons, h x (by simp)]
    cases hq : q x
    · exact ih fun y hy => h y (by simp [hy])
    · rfl



theorem bestPred_cons_none (w : String → ℤ) (thr : List ℤ)
    {c : String × List Char × Option PyFloat} (hv : c.2.2 = none)
    (t : List (String × List Char × Option PyFloat))
    (x : String × List Char × Option PyFloat) :
    bestPred w thr (c :: t) x = bestPred w thr t x := by
  unfold bestPred
  rw [List.all_cons, hv]
  simp

/-- If some valued element of `t` strictly beats `sc`, some element of `t`
satisfies `bestPred w sc t`. -/
theorem bestPred_exists_of_beats (w : String → ℤ) (sc : List ℤ)
    (t : List (String × List Char × Option PyFloat))
    (d : String × List Char × Option PyFloat) (hd : d ∈ t)
    (hdv : d.2.2.isSome = true)
    (hsd : pyTupleLt sc (scoreOf w d.1 d.2.1) = true) :
    ∃ m ∈ t, bestPred w sc t m = true := by
  have hne : (t.filter fun e => e.2.2.isSome) ≠ [] :=
    List.ne_nil_of_mem (List.mem_filter.2 ⟨hd, hdv⟩)
  obtain ⟨m, hm, hmax⟩ :=
    exists_max_first (fun e => scoreOf w e.1 e.2.1) _ hne
  have hmv : m.2.2.isSome = true := (List.mem_filter.1 hm).2
  have hmt : m ∈ t := List.mem_of_mem_filter hm
  have hscm : pyTupleLt sc (scoreOf w m.1 m.2.1) = true := by
    have hmd := hmax d (List.mem_filter.2 ⟨hd, hdv⟩)
    rcases pyTupleLt_total (scoreOf w d.1 d.2.1) (scoreOf w m.1 m.2.1) with h | h | h
    · exact pyTupleLt_trans _ _ _ hsd h
    · rw [← h]; exact hsd
    · exact absurd h (by simp [hmd])
  refine ⟨m, hmt, ?_⟩
  unfold bestPred
  rw [hmv, hscm]
  simp only [Bool.true_and]
  rw [List.all_eq_true]
  intro e he
  cases hev : e.2.2.isSome
  · simp
  · have := hmax e (List.mem_filter.2 ⟨he, hev⟩)
    simp [this]

/-- The selection loop of `read_ratio_from_image`, started from any
accumulator, stops at the first candidate satisfying `bestPred` for the
accumulator's threshold (and keeps the accumulator when there is none). -/
theorem fold_rri_char (w : String → ℤ) :
    ∀ (l : List (String × List Char × Option PyFloat))
      (acc : Option PyFloat × List Char × List ℤ),
      l.foldl (rriStep w) acc =
        match l.find? (bestPred w acc.2.2 l) with
        | some c => (c.2.2, pyStrip c.2.1, scoreOf w c.1 c.2.1)
        | none => acc := by
  intro l
  induction l with
  | nil => intro acc; rfl
  | cons c t ih =>
    intro acc
    rw [List.foldl_cons]
    cases hv : c.2.2 with
    | none =>
      have hstep : rriStep w acc c = acc := by
        simp only [rriStep, hv]
      have hpc : bestPred w acc.2.2 (c :: t) c = false := by
        unfold bestPred
        rw [hv]
        rfl
      rw [hstep, ih acc, List.find?_cons, hpc,
        find?_congr fun x _ => bestPred_cons_none w acc.2.2 hv t x]
    | some r =>
      cases hbeat : pyTupleLt acc.2.2 (scoreOf w c.1 c.2.1) with
      | false =>
        have hstep : rriStep w acc c = acc := by
          simp only [rriStep, hv, hbeat, Bool.false_eq_true, if_false]
        have hpc : bestPred w acc.2.2 (c :: t) c = false := by
          unfold bestPred
          rw [hbeat]
          simp
        have hpoint : ∀ x ∈ t,
            bestPred w acc.2.2 (c :: t) x = bestPred w acc.2.2 t x := by
          intro x _
          unfold bestPred
          rw [List.all_cons]
          cases hxv : x.2.2.isSome
          · simp
          · cases hxlt : pyTupleLt acc.2.2 (scoreOf w x.1 x.2.1)
            · simp [hxlt]
            · have hxc : pyTupleLt (scoreOf w x.1 x.2.1) (scoreOf w c.1 c.2.1) = false := by
                cases h2 : pyTupleLt (scoreOf w x.1 x.2.1) (scoreOf w c.1 c.2.1)
                · rfl
                · have := pyTupleLt_trans _ _ _ hxlt h2
                  rw [hbeat] at this
                  exact this.symm
              simp [hxc]
        rw [hstep, ih acc, List.find?_cons, hpc, find?_congr hpoint]
      | true =>
        have hstep : rriStep w acc c =
            (some r, pyStrip c.2.1, scoreOf w c.1 c.2.1) := by
          simp only [rriStep, hv, hbeat, if_true]
        rw [hstep, ih _]
        cases hQ : t.find? (bestPred w (scoreOf w c.1 c.2.1) t) with
        | none =>
          have hallc : ((c :: t).all fun d =>
              !(d.2.2.isSome &&
                pyTupleLt (scoreOf w c.1 c.2.1) (scoreOf w d.1 d.2.1))) = true := by
            rw [List.all_cons]
            have h1 : (!(c.2.2.isSome &&
                pyTupleLt (scoreOf w c.1 c.2.1) (scoreOf w c.1 c.2.1))) = true := by
              simp [pyTupleLt_irrefl]
            rw [h1, Bool.true_and, List.all_eq_true]
            intro d hd
            cases hdv : d.2.2.isSome
            · simp
            · cases hsd : pyTupleLt (scoreOf w c.1 c.2.1) (scoreOf w d.1 d.2.1)
              · simp
              · obtain ⟨m, hmt, hmP⟩ :=
                  bestPred_exists_of_beats w (scoreOf w c.1 c.2.1) t d hd hdv hsd
                exact absurd hmP (by simp [List.find?_eq_none.1 hQ m hmt])
          have hpc : bestPred w acc.2.2 (c :: t) c = true := by
            unfold bestPred
            rw [hv, hallc, hbeat]
            rfl
          rw [List.find?_cons, hpc]
          simp [hv]
        | some m =>
          have hQm : bestPred w (scoreOf w c.1 c.2.1) t m = true := List.find?_some hQ
          have hmem : m ∈ t := List.mem_of_find?_eq_some hQ
          have hQm2 := hQm
          unfold bestPred at hQm2
          rw [Bool.and_eq_true, Bool.and_eq_true] at hQm2
          obtain ⟨⟨hmv, hscm⟩, hallm⟩ := hQm2
          have hpc : bestPred w acc.2.2 (c :: t) c = false := by
            unfold bestPred
            have hall : ((c :: t).all fun d =>
                !(d.2.2.isSome &&
                  pyTupleLt (scoreOf w c.1 c.2.1) (scoreOf w d.1 d.2.1))) = false := by
              cases hall2 : ((c :: t).all fun d =>
                  !(d.2.2.isSome &&
                    pyTupleLt (scoreOf w c.1 c.2.1) (scoreOf w d.1 d.2.1)))
              · rfl
              · have := List.all_eq_true.1 hall2 m (List.mem_cons_of_mem c hmem)
                rw [hmv, hscm] at this
                exact absurd this (by simp)
            rw [hall]
            simp
          have hpoint : ∀ x ∈ t, bestPred w acc.2.2 (c :: t) x =
              bestPred w (scoreOf w c.1 c.2.1) t x := by
            intro x hx
            unfold bestPred
            rw [List.all_cons]
            cases hxv : x.2.2.isSome
            · simp
            · cases hsx : pyTupleLt (scoreOf w c.1 c.2.1) (scoreOf w x.1 x.2.1)
              · cases haccx : pyTupleLt acc.2.2 (scoreOf w x.1 x.2.1)
                · simp [haccx, hsx]
                · cases hxs : pyTupleLt (scoreOf w x.1 x.2.1) (scoreOf w c.1 c.2.1)
                  · have heq : scoreOf w x.1 x.2.1 = scoreOf w c.1 c.2.1 := by
                      rcases pyTupleLt_total (scoreOf w x.1 x.2.1)
                        (scoreOf w c.1 c.2.1) with h | h | h
                      · exact absurd h (by simp [hxs])
                      · exact h
                      · exact absurd h (by simp [hsx])
                    have hallx : (t.all fun d => !(d.2.2.isSome &&
                        pyTupleLt (scoreOf w x.1 x.2.1) (scoreOf w d.1 d.2.1))) = false := by
                      cases hall2 : (t.all fun d => !(d.2.2.isSome &&
                          pyTupleLt (scoreOf w x.1 x.2.1) (scoreOf w d.1 d.2.1)))
                      · rfl
                      · have := List.all_eq_true.1 hall2 m hmem
                        rw [hmv, heq, hscm] at this
                        exact absurd this (by simp)
                    rw [hallx]
                    simp [hsx]
                  · simp [hv, hxs, hsx]
              · have haccx : pyTupleLt acc.2.2 (scoreOf w x.1 x.2.1) = true :=
                  pyTupleLt_trans _ _ _ hbeat hsx
                have hxs : pyTupleLt (scoreOf w x.1 x.2.1) (scoreOf w c.1 c.2.1) = false :=
                  pyTupleLt_asymm hsx
                simp [haccx, hsx, hv, hxs]
          rw [List.find?_cons, hpc, find?_congr hpoint, hQ]

theorem init_lt_score (w : String → ℤ) (hw : ∀ s, 0 ≤ w s) (label : String)
    (cand : List Char) :
    pyTupleLt [-1, -1, -1, -1, -1] (scoreOf w label cand) = true := by
  simp only [scoreOf, pyTupleLt]
  rw [if_pos (by have := hw label; omega)]

theorem find?_bestPred_filter (w : String → ℤ) (hw : ∀ s, 0 ≤ w s)
    (cands : List (String × List Char × Option PyFloat)) :
    cands.find? (bestPred w [-1, -1, -1, -1, -1] cands) =
      (cands.filter fun c => c.2.2.isSome).find? (fun c =>
        (cands.filter fun d => d.2.2.isSome).all fun d =>
          !pyTupleLt (scoreOf w c.1 c.2.1) (scoreOf w d.1 d.2.1)) := by
  rw [List.find?_filter]
  refine find?_congr fun c _ => ?_
  unfold bestPred
  cases hcv : c.2.2.isSome
  · simp [hcv]
  · rw [init_lt_score w hw, List.all_filter]
    have hpt : ∀ d : String × List Char × Option PyFloat,
        (!(d.2.2.isSome && pyTupleLt (scoreOf w c.1 c.2.1) (scoreOf w d.1 d.2.1))) =
          decide (d.2.2.isSome = true →
            (!pyTupleLt (scoreOf w c.1 c.2.1) (scoreOf w d.1 d.2.1)) = true) := by
      intro d
      cases d.2.2.isSome <;>
        cases pyTupleLt (scoreOf w c.1 c.2.1) (scoreOf w d.1 d.2.1) <;> simp
    simp only [hpt, hcv]
    simp

/-- C1: with every confidence weight nonnegative, the selection stage of
`read_ratio_from_image` returns exactly the earliest-produced candidate
whose ranking key `(weight, has_sep, usable_dot, digits_after_dot,
-digit_count, -stripped_length)` is maximal in the Python-tuple order among
the candidates whose parsed value is not `None` (ties therefore go to the
earliest candidate; the last two key fields enter negated, preferring fewer
digits and shorter text), and it returns the no-candidate result
`(None, "")` exactly when every candidate's value is `None`. -/
theorem read_ratio_from_image_selects (w : String → ℤ) (hw : ∀ s, 0 ≤ w s)
    (cands : List (String × List Char × Option PyFloat)) :
    ((read_ratio_from_image w cands).1, (read_ratio_from_image w cands).2.1) =
      selectBest w cands ∧
    ((read_ratio_from_image w cands).1 = none ↔ ∀ c ∈ cands, c.2.2 = none) := by
  have hfold := fold_rri_char w cands (none, [], [-1, -1, -1, -1, -1])
  have hfind := find?_bestPred_filter w hw cands
  cases hF : cands.find? (bestPred w [-1, -1, -1, -1, -1] cands) with
  | some c =>
    have hPc := List.find?_some hF
    unfold bestPred at hPc
    rw [Bool.and_eq_true, Bool.and_eq_true] at hPc
    obtain ⟨r, hr⟩ := Option.isSome_iff_exists.1 hPc.1.1
    have hres : read_ratio_from_image w cands = (some r, pyStrip c.2.1, cands) := by
      simp only [read_ratio_from_image]
      rw [hfold, hF]
      simp [hr]
    rw [hres]
    refine ⟨?_, ?_⟩
    · simp only [selectBest]
      rw [← hfind, hF]
      simp [hr]
    · simp only [Option.some_ne_none, false_iff, not_forall]
      exact ⟨c, ⟨List.mem_of_find?_eq_some hF, by rw [hr]; simp⟩⟩
  | none =>
    have hres : read_ratio_from_image w cands = (none, [], cands) := by
      simp only [read_ratio_from_image]
      rw [hfold, hF]
    rw [hres]
    refine ⟨by simp only [selectBest]; rw [← hfind, hF], ?_⟩
    simp only [true_iff]
    intro c hc
    cases hcv : c.2.2 with
    | none => rfl
    | some r =>
      obtain ⟨m, hmt, hmP⟩ := bestPred_exists_of_beats w [-1, -1, -1, -1, -1]
        cands c hc (by rw [hcv]; rfl) (init_lt_score w hw c.1 c.2.1)
      exact absurd hmP (by simp [List.find?_eq_none.1 hF m hmt])

/-- C1 witness: three candidates with zero weights; the `"7.42"` reading
(ratio value `7.42`) outranks the `"742"` reading thanks to the usable
decimal point, and the valueless candidate is ignored. -/
theorem read_ratio_from_image_selects_witness :
    (∀ s : String, 0 ≤ (fun _ : String => (0 : ℤ)) s) ∧
    (((read_ratio_from_image (fun _ => 0)
        [("gray:psm7", "742".data, some ⟨742, 1⟩),
         ("bin:psm8", "7.42".data, some ⟨742, 100⟩),
         ("clean:psm6", [], none)]).1,
      (read_ratio_from_image (fun _ => 0)
        [("gray:psm7", "742".data, some ⟨742, 1⟩),
         ("bin:psm8", "7.42".data, some ⟨742, 100⟩),
         ("clean:psm6", [], none)]).2.1) =
      selectBest (fun _ => 0)
        [("gray:psm7", "742".data, some ⟨742, 1⟩),
         ("bin:psm8", "7.42".data, some ⟨742, 100⟩),
         ("clean:psm6", [], none)] ∧
     ((read_ratio_from_image (fun _ => 0)
        [("gray:psm7", "742".data, some ⟨742, 1⟩),
         ("bin:psm8", "7.42".data, some ⟨742, 100⟩),
         ("clean:psm6", [], none)]).1 = none ↔
       ∀ c ∈ [(("gray:psm7" : String), "742".data, some (⟨742, 1⟩ : PyFloat)),
         ("bin:psm8", "7.42".data, some ⟨742, 100⟩),
         ("clean:psm6", [], none)], c.2.2 = none)) :=
  ⟨fun _ => le_refl 0,
   read_ratio_from_image_selects (fun _ => 0) (fun _ => le_refl 0)
     [("gray:psm7", "742".data, some ⟨742, 1⟩),
      ("bin:psm8", "7.42".data, some ⟨742, 100⟩),
      ("clean:psm6", [], none)]⟩

example :
    (read_ratio_from_image (fun _ => 0)
      [("gray:psm7", "742".data, some ⟨742, 1⟩),
       ("bin:psm8", "7.42".data, some ⟨742, 100⟩),
       ("clean:psm6", [], none)]).1 = some ⟨742, 100⟩ := by decide

end Poe2
